import Mathlib

/-!
# Verification of the dacli structure-parsing and mutation code

Shallow embedding of the Python sources of the `dacli` repository
(`src/mcp_server/asciidoc_parser.py`, `src/mcp_server/components/parser.py`,
`src/dacli/api/manipulation.py`, `src/dacli/services/validation_service.py`),
together with theorems settling the specification claims about them.

Conventions:
* Python strings are Lean `String`s; per-character processing works on
  `String.data : List Char`.
* Python's character classes (`\s`, `\w`, `str.lower`) are embedded on the
  ASCII + Latin-1 fragment of Unicode, which covers every character that
  occurs in the repository, its tests and the specification examples.
* The Python parsers mutate `Section` objects held both in a stack and in
  the result tree (appending children through aliases).  The embedding uses
  the standard zipper rendering of that idiom: the stack holds the sections
  still under construction, and a section is attached to the `children`
  list of the element below it exactly when it leaves the stack (which is
  when its `children` list is complete).  The final tree is identical.
-/

namespace DacliProof

/-! ## Python character primitives (ASCII + Latin-1 fragment) -/

/-- Python's `\s` (and `str.strip` default set) restricted to ASCII:
space, tab, newline, carriage return, vertical tab, form feed. -/
def pyIsSpace (c : Char) : Bool :=
  c = ' ' || c = '\t' || c = '\n' || c = '\r' ||
  c = Char.ofNat 0x0b || c = Char.ofNat 0x0c

/-- Uppercase letters in the ASCII + Latin-1 range, as classified by
Python's `str.lower` (`A`–`Z`, `À`–`Þ` without the multiplication sign). -/
def pyIsUpper (c : Char) : Bool :=
  (decide (65 ≤ c.toNat) && decide (c.toNat ≤ 90)) ||
  (decide (0xC0 ≤ c.toNat) && decide (c.toNat ≤ 0xDE) &&
    decide (c.toNat ≠ 0xD7))

/-- Python `str.lower` on the ASCII + Latin-1 range: uppercase letters move
down by 0x20 (this maps `Ü` (U+00DC) to `ü` (U+00FC)); everything else is
unchanged. -/
def pyLower (c : Char) : Char :=
  if pyIsUpper c then Char.ofNat (c.toNat + 0x20) else c

/-- Python's regex class `\w` (Unicode mode) restricted to the ASCII +
Latin-1 range: ASCII letters and digits, the underscore, the Latin-1
letters `ª`, `µ`, `º`, and the accented letters U+00C0–U+00FF without the
multiplication and division signs.  In particular `ü` (U+00FC) is a word
character. -/
def pyIsWordChar (c : Char) : Bool :=
  (decide (97 ≤ c.toNat) && decide (c.toNat ≤ 122)) ||
  (decide (65 ≤ c.toNat) && decide (c.toNat ≤ 90)) ||
  (decide (48 ≤ c.toNat) && decide (c.toNat ≤ 57)) || c = '_' ||
  decide (c.toNat = 0xAA) || decide (c.toNat = 0xB5) ||
  decide (c.toNat = 0xBA) ||
  (decide (0xC0 ≤ c.toNat) && decide (c.toNat ≤ 0xFF) &&
    decide (c.toNat ≠ 0xD7) && decide (c.toNat ≠ 0xF7))

/-- Python `str.strip()` (both ends, default whitespace set). -/
def pyStripList (l : List Char) : List Char :=
  ((l.dropWhile pyIsSpace).reverse.dropWhile pyIsSpace).reverse

/-- Python `str.strip()` on `String`. -/
def pyStrip (s : String) : String :=
  String.mk (pyStripList s.data)

/-- Python `str.lstrip()` (leading whitespace only). -/
def pyLstrip (s : String) : String :=
  String.mk (s.data.dropWhile pyIsSpace)

/-- `re.sub(r"\s+", "-", s)` as a single left-to-right pass: every maximal
run of whitespace characters (the flag records whether we are inside such a
run) is replaced by a single hyphen. -/
def subWsDash : Bool → List Char → List Char
  | _, [] => []
  | inWs, c :: cs =>
    if pyIsSpace c then
      if inWs then subWsDash true cs else '-' :: subWsDash true cs
    else c :: subWsDash false cs

/-! ## `asciidoc_parser._title_to_slug`

```python
slug = title.lower()
slug = re.sub(r"[^\w\s-]", "", slug)
slug = re.sub(r"\s+", "-", slug)
```
-/

def titleToSlug (title : String) : String :=
  let s1 := title.data.map pyLower
  let s2 := s1.filter (fun c => pyIsWordChar c || pyIsSpace c || c = '-')
  String.mk (subWsDash false s2)

example : titleToSlug "Kapitel 2: Über uns!" = "kapitel-2-über-uns" := by decide

example : titleToSlug "A.1" = "a1" := by decide

/-! ## `SECTION_PATTERN` — `^(={1,6})\s+(.+?)(?:\s+=*)?$`

`matchSECTION` returns `(count of '=', group2.strip())` when the pattern
matches (the parser immediately applies `.strip()` to group 2, so the
stripped capture is embedded).  Derivation of the backtracking semantics:

* the line must start with `k` equals signs, `1 ≤ k ≤ 6`, followed by at
  least one whitespace character (with more than 6 equals signs the `\s+`
  always fails, since every backtracking position is followed by `=`);
* write the remainder as `W ++ T` with `W` the maximal whitespace run.
  If `T = []`, the lazy `(.+?)` must take one of the whitespace characters
  and `\s+` at least one before it, so the line matches iff `|W| ≥ 2`, and
  then `group2.strip() = ""`;
* if `T ≠ []`, the greedy `\s+` keeps all of `W` and the lazy `(.+?)`
  stops as early as possible, i.e. group 2 is `T` minus the longest
  suffix matching `\s+=*`: a maximal trailing run of `=` with at least
  one whitespace character directly before it, or (when there is no
  trailing `=` run) a maximal trailing whitespace run.  If the trailing
  `=` run is not preceded by whitespace it stays part of group 2.
  The resulting capture neither starts nor ends with whitespace, so
  `.strip()` leaves it unchanged. -/

def matchSECTION (line : String) : Option (Nat × String) :=
  let cs := line.data
  let k := (cs.takeWhile (fun c => c = '=')).length
  if 1 ≤ k ∧ k ≤ 6 then
    let rest := cs.drop k
    match rest.head? with
    | none => none
    | some c =>
      if pyIsSpace c then
        let t := rest.dropWhile pyIsSpace
        if t.isEmpty then
          if 2 ≤ (rest.takeWhile pyIsSpace).length then some (k, "") else none
        else
          let r := t.reverse
          let r1 := r.dropWhile (fun c => c = '=')
          let w := r1.takeWhile pyIsSpace
          if w.isEmpty then some (k, String.mk t)
          else some (k, String.mk (r1.dropWhile pyIsSpace).reverse)
      else none
  else none

example : matchSECTION "== Hello World" = some (2, "Hello World") := by decide
example : matchSECTION "= Title" = some (1, "Title") := by decide
example : matchSECTION "==NoSpace" = none := by decide
example : matchSECTION "======= seven" = none := by decide
example : matchSECTION "== Trailing ==" = some (2, "Trailing") := by decide
example : matchSECTION "==  " = some (2, "") := by decide
example : matchSECTION "== " = none := by decide
example : matchSECTION "text" = none := by decide
example : matchSECTION "== a ==x" = some (2, "a ==x") := by decide

/-! ## `AsciidocParser._substitute_attributes`

```python
for name, value in attributes.items():
    result = result.replace(f"{{{name}}}", value)
```
-/

def substAttrs (attrs : List (String × String)) (text : String) : String :=
  attrs.foldl (fun r nv => r.replace ("\x7b" ++ nv.1 ++ "\x7d") nv.2) text

/-! ## Section model of `mcp_server.models` as used by `_parse_sections`

Only the fields the parser populates and reads are embedded: `title`,
`level`, `path`, the source line (from `SourceLocation(file, line)`) and
`children`.  (`anchor` is always `None` and the file is fixed.) -/

inductive MSec : Type where
  | mk (title : String) (level : Nat) (path : String) (line : Nat)
       (children : List MSec)

def MSec.title : MSec → String
  | .mk t _ _ _ _ => t

def MSec.level : MSec → Nat
  | .mk _ l _ _ _ => l

def MSec.path : MSec → String
  | .mk _ _ p _ _ => p

def MSec.line : MSec → Nat
  | .mk _ _ _ n _ => n

def MSec.children : MSec → List MSec
  | .mk _ _ _ _ cs => cs

/-- `parent.children.append(section)` of the Python source. -/
def MSec.addChild : MSec → MSec → MSec
  | .mk t l p n cs, c => .mk t l p n (cs ++ [c])

/-! ## `AsciidocParser._parse_sections` (zipper rendering)

The Python loop keeps `sections` (top-level list) and `section_stack`;
stack entries alias nodes of the result tree and receive children by
mutation.  Here the stack is kept top-first and a stack entry carries the
children accumulated so far; it is attached to the entry below it (resp.
appended to the root list) at the moment it leaves the stack. -/

/-- Fold a finished section into the in-progress sections below it:
`collapse1 t [p, q, …]` attaches `t` as last child of `p`, the result as
last child of `q`, and so on, returning the bottom-most tree. -/
def collapse1 : MSec → List MSec → MSec
  | t, [] => t
  | t, p :: rest => collapse1 (p.addChild t) rest

/-- Finish every section still on the stack; a non-empty stack collapses
to its single bottom-most (root) section. -/
def flushStack : List MSec → List MSec
  | [] => []
  | t :: rest => [collapse1 t rest]

/-- Parser state: completed top-level sections, the stack (top first),
and the document title seen so far. -/
structure AState where
  roots : List MSec
  stack : List MSec
  docTitle : String

def AState.init : AState := ⟨[], [], ""⟩

/-- The `while section_stack and section_stack[-1].level >= level: pop()`
loop in zipper form: the popped prefix (`takeWhile`) is collapsed into the
new top of the stack (the section every popped element hangs under), or
becomes a completed root when the stack runs out.  Returns the updated
`(sections, section_stack)` pair. -/
def popPhase (roots stack : List MSec) (level : Nat) :
    List MSec × List MSec :=
  let dropped := stack.takeWhile (fun s => level ≤ s.level)
  let kept := stack.dropWhile (fun s => level ≤ s.level)
  match dropped with
  | [] => (roots, kept)
  | d :: ds =>
    match kept with
    | [] => (roots ++ [collapse1 d ds], [])
    | p :: ks => (roots, p.addChild (collapse1 d ds) :: ks)

/-- One loop iteration of `_parse_sections` for the line numbered
`lineNum` (1-based).  Level 0 re-creates the stack as `[section]`, so the
previous stack is flushed wholesale; levels ≥ 1 run the pop loop and push
the new section with its path derived from the resulting stack top. -/
def stepLine (attrs : List (String × String)) (st : AState)
    (lineNum : Nat) (line : String) : AState :=
  match matchSECTION line with
  | none => st
  | some (k, rawTitle) =>
    let title := substAttrs attrs rawTitle
    let level := k - 1
    if level = 0 then
      let sec := MSec.mk title 0 (titleToSlug title) lineNum []
      { roots := st.roots ++ flushStack st.stack
        stack := [sec]
        docTitle := title }
    else
      let rs := popPhase st.roots st.stack level
      match rs.2 with
      | p :: _ =>
        let sec := MSec.mk title level (p.path ++ "." ++ titleToSlug title)
          lineNum []
        { roots := rs.1, stack := sec :: rs.2, docTitle := st.docTitle }
      | [] =>
        let sec := MSec.mk title level (titleToSlug title) lineNum []
        { roots := rs.1, stack := [sec], docTitle := st.docTitle }

/-- `_parse_sections(lines, file_path, attributes)`: enumerate the lines
starting at 1, run the loop, finish the stack.  Returns
`(top-level sections, document title)`. -/
def parseSectionsA (attrs : List (String × String)) (lines : List String) :
    List MSec × String :=
  let st := lines.enum.foldl
    (fun st il => stepLine attrs st (il.1 + 1) il.2) AState.init
  (st.roots ++ flushStack st.stack, st.docTitle)

/-- The lines of `"= Title\n\n== A\n\n=== A.1\n\n== B\n"` after
`str.splitlines()`. -/
def scenarioLines : List String :=
  ["= Title", "", "== A", "", "=== A.1", "", "== B"]

example :
    parseSectionsA [] scenarioLines =
      ([MSec.mk "Title" 0 "title" 1
          [MSec.mk "A" 1 "title.a" 3
             [MSec.mk "A.1" 2 "title.a.a1" 5 []],
           MSec.mk "B" 1 "title.b" 7 []]],
       "Title") := by rfl

mutual

/-- All `path` fields of a section tree, in preorder. -/
def pathsT : MSec → List String
  | .mk _ _ p _ cs => p :: pathsL cs

/-- All `path` fields of a list of section trees, in preorder. -/
def pathsL : List MSec → List String
  | [] => []
  | s :: ss => pathsT s ++ pathsL ss

end

example :
    pathsL (parseSectionsA [] scenarioLines).1 =
      ["title", "title.a", "title.a.a1", "title.b"] := by rfl

/-- C4 (counterexample): parsing `"= Title\n\n== A\n\n=== A.1\n\n== B\n"`
does not produce a section with path `title.a.a-1`: `_title_to_slug`
deletes the dot of `A.1` (it is neither a word character nor whitespace
nor a hyphen) without inserting a hyphen, so the path is `title.a.a1`. -/
theorem C4_counterexample :
    "title.a.a-1" ∉ pathsL (parseSectionsA [] scenarioLines).1 := by
  decide

/-- C4 (amended): parsing the scenario input yields the tree
`Title{A{A.1{}}, B{}}` with section paths exactly `title`, `title.a`,
`title.a.a1` and `title.b`, each deeper path formed as
`parent.path + "." + slug(title)`. -/
theorem C4_scenario_paths :
    parseSectionsA [] scenarioLines =
      ([MSec.mk "Title" 0 "title" 1
          [MSec.mk "A" 1 "title.a" 3
             [MSec.mk "A.1" 2 "title.a.a1" 5 []],
           MSec.mk "B" 1 "title.b" 7 []]],
       "Title") ∧
    pathsL (parseSectionsA [] scenarioLines).1 =
      ["title", "title.a", "title.a.a1", "title.b"] ∧
    "title" = titleToSlug "Title" ∧
    "title.a" = "title" ++ "." ++ titleToSlug "A" ∧
    "title.a.a1" = "title.a" ++ "." ++ titleToSlug "A.1" ∧
    "title.b" = "title" ++ "." ++ titleToSlug "B" := by
  refine ⟨rfl, rfl, ?_, ?_, ?_, ?_⟩ <;> decide

/-! ## Claim C7: slug determinism and character range -/

/-- Characters produced by `subWsDash` are hyphens or non-whitespace
characters of the input. -/
theorem subWsDash_chars (b : Bool) (l : List Char) :
    ∀ c ∈ subWsDash b l, c = '-' ∨ (c ∈ l ∧ pyIsSpace c = false) := by
  induction l generalizing b with
  | nil => intro c hc; simp [subWsDash] at hc
  | cons d ds ih =>
    intro c hc
    by_cases hd : pyIsSpace d = true
    · rcases b with _ | _
      · simp only [subWsDash, hd, if_true, Bool.false_eq_true, if_false,
          List.mem_cons] at hc
        rcases hc with rfl | hc
        · exact Or.inl rfl
        · rcases ih true c hc with h | ⟨h1, h2⟩
          · exact Or.inl h
          · exact Or.inr ⟨List.mem_cons_of_mem _ h1, h2⟩
      · simp only [subWsDash, hd, if_true] at hc
        rcases ih true c hc with h | ⟨h1, h2⟩
        · exact Or.inl h
        · exact Or.inr ⟨List.mem_cons_of_mem _ h1, h2⟩
    · simp only [subWsDash, hd, Bool.false_eq_true, if_false,
        List.mem_cons] at hc
      rcases hc with rfl | hc
      · exact Or.inr ⟨List.mem_cons_self _ _, by simpa using hd⟩
      · rcases ih false c hc with h | ⟨h1, h2⟩
        · exact Or.inl h
        · exact Or.inr ⟨List.mem_cons_of_mem _ h1, h2⟩

/-- `Char.ofNat` at a valid code point has that code point as `toNat`. -/
theorem char_toNat_ofNat {n : Nat} (h : n.isValidChar) :
    (Char.ofNat n).toNat = n := by
  rw [Char.ofNat, dif_pos h]
  rfl

/-- `pyLower` never returns an uppercase character. -/
theorem pyIsUpper_pyLower (c : Char) : pyIsUpper (pyLower c) = false := by
  unfold pyLower
  by_cases h : pyIsUpper c = true
  · rw [if_pos h]
    unfold pyIsUpper at h
    simp only [Bool.or_eq_true, Bool.and_eq_true, decide_eq_true_eq] at h
    have hvalid : (c.toNat + 0x20).isValidChar := by
      left
      omega
    have htn : (Char.ofNat (c.toNat + 0x20)).toNat = c.toNat + 0x20 :=
      char_toNat_ofNat hvalid
    rw [Bool.eq_false_iff]
    intro hcon
    unfold pyIsUpper at hcon
    simp only [Bool.or_eq_true, Bool.and_eq_true, decide_eq_true_eq, htn]
      at hcon
    omega
  · rw [if_neg h]
    simpa using h

/-- Every character of a slug is a Python word character or a hyphen, and
is never uppercase. -/
theorem titleToSlug_chars (s : String) :
    ∀ c ∈ (titleToSlug s).data,
      (pyIsWordChar c || c = '-') = true ∧ pyIsUpper c = false := by
  intro c hc
  unfold titleToSlug at hc
  simp only [String.data] at hc
  rcases subWsDash_chars _ _ c hc with rfl | ⟨hmem, hsp⟩
  · exact ⟨by decide, by decide⟩
  · rcases List.mem_filter.mp hmem with ⟨hmap, hpred⟩
    constructor
    · rcases Bool.or_eq_true_iff.mp hpred with h1 | h2
      · rcases Bool.or_eq_true_iff.mp h1 with h3 | h4
        · exact Bool.or_eq_true_iff.mpr (Or.inl h3)
        · rw [hsp] at h4
          exact absurd h4 (by simp)
      · exact Bool.or_eq_true_iff.mpr (Or.inr h2)
    · rcases List.mem_map.mp hmap with ⟨d, _, rfl⟩
      exact pyIsUpper_pyLower d

/-- C7 (counterexample): `slug("Kapitel 2: Über uns!")` is
`"kapitel-2-über-uns"`, which contains `ü` (U+00FC) — a character outside
`[a-z0-9-]` — because Python's `\w` keeps Unicode letters.  So the claimed
character-range property fails on this very input. -/
theorem C7_counterexample :
    titleToSlug "Kapitel 2: Über uns!" = "kapitel-2-über-uns" ∧
    ¬ (titleToSlug "Kapitel 2: Über uns!").data.all
        (fun c => (decide (97 ≤ c.toNat) && decide (c.toNat ≤ 122)) ||
          (decide (48 ≤ c.toNat) && decide (c.toNat ≤ 57)) ||
          c = '-') := by
  constructor
  · rfl
  · decide

/-- C7 (amended): the slug function is deterministic; its output never
contains an uppercase character (ASCII or Latin-1), and every output
character is a Python word character or a hyphen.  (The range `[a-z0-9-]`
of the original claim is too small: Unicode word characters such as `ü`
survive, as `slug("Kapitel 2: Über uns!") = "kapitel-2-über-uns"`
witnesses.) -/
theorem C7_slug_deterministic_charset :
    (∀ s t : String, s = t → titleToSlug s = titleToSlug t) ∧
    (∀ s : String, ∀ c ∈ (titleToSlug s).data,
      (pyIsWordChar c || c = '-') = true ∧ pyIsUpper c = false) ∧
    titleToSlug "Kapitel 2: Über uns!" = "kapitel-2-über-uns" := by
  refine ⟨fun s t h => by rw [h], titleToSlug_chars, rfl⟩

/-- Witness for `C7_slug_deterministic_charset` at concrete inputs. -/
theorem C7_slug_deterministic_charset_witness :
    titleToSlug "Über" = titleToSlug "Über" ∧
    (pyIsWordChar 'k' || 'k' = '-') = true ∧ pyIsUpper 'k' = false := by
  refine ⟨C7_slug_deterministic_charset.1 "Über" "Über" rfl, ?_⟩
  exact C7_slug_deterministic_charset.2.1 "Kapitel 2: Über uns!" 'k'
    (by decide)

/-! ## `mcp_server.components.parser`

`SECTION_TITLE_REGEX = ^(={2,5})\s+(.*)` — a line matches iff it starts
with a run of exactly 2–5 equals signs followed by at least one whitespace
character (with 6 or more equals signs every backtracking position of
`={2,5}` is followed by `=`, so `\s+` fails); the greedy `\s+` then takes
the maximal whitespace run and `(.*)` the remainder, which the parser
strips.  `level` is the number of equals signs (not decremented). -/

def matchC (line : String) : Option (Nat × String) :=
  let cs := line.data
  let k := (cs.takeWhile (fun c => c = '=')).length
  if 2 ≤ k ∧ k ≤ 5 then
    let rest := cs.drop k
    match rest.head? with
    | some c =>
      if pyIsSpace c then
        some (k, pyStrip (String.mk (rest.dropWhile pyIsSpace)))
      else none
    | none => none
  else none

example : matchC "== Hello" = some (2, "Hello") := by decide
example : matchC "= Title" = none := by decide
example : matchC "====== x" = none := by decide

/-- Section model of `mcp_server.models.document.Section`: `title`,
`level`, `content` (raw lines) and `subsections`. -/
inductive CSec : Type where
  | mk (title : String) (level : Nat) (content : List String)
       (subsections : List CSec)

def CSec.level : CSec → Nat
  | .mk _ l _ _ => l

def CSec.title : CSec → String
  | .mk t _ _ _ => t

/-- `section_stack[-1].content.append(line)`. -/
def CSec.addContent : CSec → String → CSec
  | .mk t l co su, line => .mk t l (co ++ [line]) su

/-- `section_stack[-1].subsections.append(new_section)`. -/
def CSec.addSub : CSec → CSec → CSec
  | .mk t l co su, s => .mk t l co (su ++ [s])

/-- Zipper collapse for the components parser (see `collapse1`). -/
def collapse1C : CSec → List CSec → CSec
  | t, [] => t
  | t, p :: rest => collapse1C (p.addSub t) rest

def flushStackC : List CSec → List CSec
  | [] => []
  | t :: rest => [collapse1C t rest]

structure CState where
  roots : List CSec
  stack : List CSec

/-- One iteration of the `parse_document` loop (zipper rendering, with the
same deferred child attachment as `stepLine`).  A non-heading line is
appended to the content of the top of the stack, and discarded when the
stack is empty (`elif section_stack:`). -/
def stepC (st : CState) (line : String) : CState :=
  match matchC line with
  | some (lvl, title) =>
    let dropped := st.stack.takeWhile (fun s => lvl ≤ s.level)
    let kept := st.stack.dropWhile (fun s => lvl ≤ s.level)
    let (roots1, stack1) :=
      match dropped with
      | [] => (st.roots, kept)
      | d :: ds =>
        match kept with
        | [] => (st.roots ++ [collapse1C d ds], ([] : List CSec))
        | p :: ks => (st.roots, p.addSub (collapse1C d ds) :: ks)
    let sec := CSec.mk title lvl [] []
    { roots := roots1, stack := sec :: stack1 }
  | none =>
    match st.stack with
    | [] => st
    | t :: rest => { st with stack := t.addContent line :: rest }

/-- The section-building core of `parse_document` over the pre-processed
line list (`all_lines`); returns `document.sections`. -/
def parseDocC (lines : List String) : List CSec :=
  let st := lines.foldl stepC ⟨[], []⟩
  st.roots ++ flushStackC st.stack

example :
    parseDocC ["junk", "= Title", "== A", "body", "=== B"] =
      [CSec.mk "A" 2 ["body"] [CSec.mk "B" 3 [] []]] := by rfl

/-- A non-heading line leaves the empty initial state unchanged. -/
theorem stepC_skip (line : String) (roots : List CSec)
    (h : matchC line = none) :
    stepC ⟨roots, []⟩ line = ⟨roots, []⟩ := by
  unfold stepC
  rw [h]

/-- C9: every line preceding the first heading-pattern match is discarded
by `parse_document` — parsing is unchanged by removing the non-matching
prefix — and a document-title line `"= ..."` (a single equals sign) never
matches the pattern `^(={2,5})\s+(.*)`, hence never produces a section and
is itself pre-heading content. -/
theorem C9_preheading_discarded :
    (∀ lines : List String,
      parseDocC lines =
        parseDocC (lines.dropWhile (fun l => (matchC l).isNone))) ∧
    (∀ t : String, matchC ("= " ++ t) = none) := by
  constructor
  · intro lines
    unfold parseDocC
    induction lines with
    | nil => rfl
    | cons l ls ih =>
      by_cases h : matchC l = none
      · rw [List.dropWhile_cons_of_pos (by simp [h]), List.foldl_cons,
          stepC_skip l [] h]
        exact ih
      · rw [List.dropWhile_cons_of_neg (by simp [h])]
  · intro t
    have hdata : ("= " ++ t).data = '=' :: ' ' :: t.data := by
      simp [String.data_append]
    unfold matchC
    rw [hdata]
    simp [List.takeWhile_cons]

/-! ## `dacli/api/manipulation.py`

Section model of `dacli.models.Section` as consumed by the manipulation
helpers: `level`, `title`, `source_location.line`, the optional
`source_location.end_line` and `children`.  The `FileSystemHandler.read_file`
call used by the fallback of `_get_section_end_line` is modelled by an
`Option Nat` argument: `some n` stands for a successful read of a file
with `n` lines (`len(content.splitlines())`), `none` for `FileReadError`. -/

inductive DSec : Type where
  | mk (title : String) (level : Nat) (line : Nat) (endLine : Option Nat)
       (children : List DSec)

def DSec.title : DSec → String
  | .mk t _ _ _ _ => t

def DSec.level : DSec → Nat
  | .mk _ l _ _ _ => l

def DSec.line : DSec → Nat
  | .mk _ _ n _ _ => n

def DSec.endLine : DSec → Option Nat
  | .mk _ _ _ e _ => e

def DSec.children : DSec → List DSec
  | .mk _ _ _ _ cs => cs

/-- `_get_section_end_line(section, file_path)`: the parser-populated
`end_line` when present, the file's total line count when the file can be
read, and the `line + 10` last-resort fallback otherwise. -/
def sectionEndLine (readLines : Option Nat) (s : DSec) : Nat :=
  match s.endLine with
  | some e => e
  | none =>
    match readLines with
    | some n => n
    | none => s.line + 10

mutual

/-- `_get_section_end_with_children(section, file_path)`: `end_line` of
the section itself when it has no children, otherwise the recursive end
of its **last** child (`section.children[-1]`). -/
def sectionEndWithChildren (readLines : Option Nat) : DSec → Nat
  | .mk t l n e [] => sectionEndLine readLines (.mk t l n e [])
  | .mk _ _ _ _ (c :: cs) => lastEndWithChildren readLines (c :: cs)

/-- Helper walking to the last element of the non-empty child list
(`children[-1]`) and recursing into it.  The `[]` branch mirrors the
`IndexError` of `children[-1]` on an empty list and is unreachable: the
caller only passes non-empty child lists. -/
def lastEndWithChildren (readLines : Option Nat) : List DSec → Nat
  | [] => 0
  | [c] => sectionEndWithChildren readLines c
  | _ :: d :: ds => lastEndWithChildren readLines (d :: ds)

end

mutual

/-- The deepest-last descendant: follow the last child until a childless
section is reached. -/
def lastDescendant : DSec → DSec
  | .mk t l n e [] => .mk t l n e []
  | .mk _ _ _ _ (c :: cs) => lastDescendantL (c :: cs)

/-- Last element of a non-empty list of sections, recursed into; the `[]`
branch is unreachable. -/
def lastDescendantL : List DSec → DSec
  | [] => .mk "" 0 0 none []
  | [c] => lastDescendant c
  | _ :: d :: ds => lastDescendantL (d :: ds)

end

/-- Well-formedness of parser-produced section trees: every child's
(fallback-resolved) end line lies strictly beyond its parent's own end
line — a child starts after the parent's direct content ends. -/
inductive WFEnd (readLines : Option Nat) : DSec → Prop where
  | intro (s : DSec)
      (hgt : ∀ c ∈ s.children,
        sectionEndLine readLines s < sectionEndLine readLines c)
      (hrec : ∀ c ∈ s.children, WFEnd readLines c) : WFEnd readLines s

/-- `lastEndWithChildren` selects the last element of the list. -/
theorem lastEndWithChildren_eq (r : Option Nat) (c : DSec)
    (cs : List DSec) :
    lastEndWithChildren r (c :: cs) =
      sectionEndWithChildren r (cs.getLastD c) := by
  induction cs generalizing c with
  | nil => simp [lastEndWithChildren, List.getLastD]
  | cons d ds ih =>
    have h1 : lastEndWithChildren r (c :: d :: ds) =
        lastEndWithChildren r (d :: ds) := by
      simp [lastEndWithChildren]
    rw [h1, ih d, List.getLastD_cons]

/-- `lastDescendantL` selects the last element of the list. -/
theorem lastDescendantL_eq (c : DSec) (cs : List DSec) :
    lastDescendantL (c :: cs) = lastDescendant (cs.getLastD c) := by
  induction cs generalizing c with
  | nil => simp [lastDescendantL, List.getLastD]
  | cons d ds ih =>
    have h1 : lastDescendantL (c :: d :: ds) = lastDescendantL (d :: ds) := by
      simp [lastDescendantL]
    rw [h1, ih d, List.getLastD_cons]

/-- C5: on well-formed section trees, `section_end_with_descendants` is at
least `section_end_line`, with equality exactly for childless sections;
for a section with children it is the end line of the deepest-last
descendant (the recursion always follows the last child). -/
theorem C5_end_with_descendants (r : Option Nat) (s : DSec)
    (h : WFEnd r s) :
    sectionEndLine r s ≤ sectionEndWithChildren r s ∧
    (sectionEndWithChildren r s = sectionEndLine r s ↔ s.children = []) ∧
    (s.children ≠ [] →
      sectionEndWithChildren r s =
        sectionEndLine r (lastDescendant s)) := by
  induction h with
  | intro s hgt hrec ih =>
    rcases s with ⟨t, l, n, e, cs⟩
    rcases cs with _ | ⟨c, cs⟩
    · have h0 : sectionEndWithChildren r (DSec.mk t l n e []) =
          sectionEndLine r (DSec.mk t l n e []) := by
        simp [sectionEndWithChildren]
      refine ⟨le_of_eq h0.symm, by simp [h0, DSec.children], ?_⟩
      intro hne
      exact absurd
        (show (DSec.mk t l n e []).children = [] by simp [DSec.children])
        hne
    · have hlastmem : cs.getLastD c ∈ c :: cs := by
        rcases cs with _ | ⟨d, ds⟩
        · simp [List.getLastD]
        · rw [List.getLastD_cons]
          exact List.mem_cons_of_mem _ (List.getLastD_mem_cons _ _)
      have hmem : cs.getLastD c ∈ (DSec.mk t l n e (c :: cs)).children := by
        simpa [DSec.children] using hlastmem
      have hwc : sectionEndWithChildren r (DSec.mk t l n e (c :: cs)) =
          sectionEndWithChildren r (cs.getLastD c) := by
        have h1 : sectionEndWithChildren r (DSec.mk t l n e (c :: cs)) =
            lastEndWithChildren r (c :: cs) := by
          simp [sectionEndWithChildren]
        rw [h1, lastEndWithChildren_eq]
      have ihlast := ih _ hmem
      have hgtlast := hgt _ hmem
      have hle : sectionEndLine r (DSec.mk t l n e (c :: cs)) <
          sectionEndWithChildren r (DSec.mk t l n e (c :: cs)) := by
        rw [hwc]
        exact lt_of_lt_of_le hgtlast ihlast.1
      refine ⟨le_of_lt hle, ?_, ?_⟩
      · constructor
        · intro heq
          rw [heq] at hle
          exact absurd rfl (ne_of_lt hle)
        · intro hcon
          simp [DSec.children] at hcon
      · intro _
        rw [hwc]
        have hld : lastDescendant (DSec.mk t l n e (c :: cs)) =
            lastDescendant (cs.getLastD c) := by
          have h1 : lastDescendant (DSec.mk t l n e (c :: cs)) =
              lastDescendantL (c :: cs) := by
            simp [lastDescendant]
          rw [h1, lastDescendantL_eq]
        rw [hld]
        rcases Classical.em ((cs.getLastD c).children = []) with hnil | hne
        · rcases hch : cs.getLastD c with ⟨t2, l2, n2, e2, cs2⟩
          rw [hch] at hnil
          simp only [DSec.children] at hnil
          subst hnil
          simp [sectionEndWithChildren, lastDescendant]
        · rw [ihlast.2.2 hne]

/-- Witness for `C5_end_with_descendants`: a parent (lines 1–2) with one
child (lines 3–5). -/
theorem C5_end_with_descendants_witness :
    sectionEndLine none (DSec.mk "p" 1 1 (some 2)
        [DSec.mk "c" 2 3 (some 5) []]) ≤
      sectionEndWithChildren none (DSec.mk "p" 1 1 (some 2)
        [DSec.mk "c" 2 3 (some 5) []]) ∧
    (sectionEndWithChildren none (DSec.mk "p" 1 1 (some 2)
        [DSec.mk "c" 2 3 (some 5) []]) =
      sectionEndLine none (DSec.mk "p" 1 1 (some 2)
        [DSec.mk "c" 2 3 (some 5) []]) ↔
      (DSec.mk "p" 1 1 (some 2) [DSec.mk "c" 2 3 (some 5) []]).children
        = []) ∧
    ((DSec.mk "p" 1 1 (some 2) [DSec.mk "c" 2 3 (some 5) []]).children
        ≠ [] →
      sectionEndWithChildren none (DSec.mk "p" 1 1 (some 2)
        [DSec.mk "c" 2 3 (some 5) []]) =
      sectionEndLine none (lastDescendant (DSec.mk "p" 1 1 (some 2)
        [DSec.mk "c" 2 3 (some 5) []]))) := by
  apply C5_end_with_descendants
  refine WFEnd.intro _ ?_ ?_
  · intro c hc
    simp only [DSec.children, List.mem_singleton] at hc
    subst hc
    decide
  · intro c hc
    simp only [DSec.children, List.mem_singleton] at hc
    subst hc
    refine WFEnd.intro _ ?_ ?_ <;> intro d hd <;>
      simp [DSec.children] at hd

/-! ## `insert_content` / `update_section` content handling -/

/-- Python `content.endswith("\n")`. -/
def pyEndsWithNl (s : String) : Bool :=
  decide (s.data.getLast? = some '\n')

/-- `if not content.endswith("\n"): content += "\n"` — shared by
`update_section` (lines 124–126) and `insert_content` (lines 200–201). -/
def normEndNl (s : String) : String :=
  if pyEndsWithNl s then s else s ++ "\n"

/-- The three insert positions of `InsertContentRequest.position`. -/
inductive InsertPosition : Type where
  | before
  | after
  | append

/-- The splice logic of `insert_content` (lines 199–232): 1-based
`start_line` and `end_line` come from the resolved section, `lines` is
`read_file(...).splitlines(keepends=True)`; the normalized content is
spliced as one list element.  Returns `(new_lines, insert_line)`. -/
def insertContentCore (lines : List String) (sec : DSec) (r : Option Nat)
    (pos : InsertPosition) (content0 : String) : List String × Nat :=
  let startLine := sec.line
  let endLine := sectionEndLine r sec
  let content := normEndNl content0
  match pos with
  | .before =>
    (lines.take (startLine - 1) ++ content :: lines.drop (startLine - 1),
     startLine)
  | .after =>
    let endWithChildren := sectionEndWithChildren r sec
    (lines.take endWithChildren ++ content :: lines.drop endWithChildren,
     endWithChildren + 1)
  | .append =>
    (lines.take (endLine - 1) ++ content :: lines.drop (endLine - 1),
     endLine)

/-- A string ends with exactly one trailing newline: its last character
is a newline and the character before it (if any) is not. -/
def endsWithExactlyOneNl (s : String) : Bool :=
  match s.data.reverse with
  | [] => false
  | c :: rest => decide (c = '\n') && !(decide (rest.head? = some '\n'))

/-- Removing the spliced element restores the original list. -/
theorem eraseIdx_splice {α : Type} (l : List α) (k : Nat) (x : α)
    (h : k ≤ l.length) :
    (l.take k ++ x :: l.drop k).eraseIdx k = l := by
  induction k generalizing l with
  | zero => simp
  | succ k ih =>
    rcases l with _ | ⟨c, l⟩
    · simp at h
    · simp only [List.take_succ_cons, List.drop_succ_cons, List.cons_append,
        List.eraseIdx_cons_succ]
      rw [ih l (by simpa using h)]

/-- The spliced element sits at the splice index. -/
theorem getElem_splice {α : Type} (l : List α) (k : Nat) (x : α)
    (h : k ≤ l.length) :
    (l.take k ++ x :: l.drop k)[k]? = some x := by
  rw [List.getElem?_append_right (by simp [List.length_take])]
  simp [List.length_take, Nat.min_eq_left h]

/-- The spliced list keeps the original prefix before the splice index. -/
theorem take_splice {α : Type} (l : List α) (k : Nat) (x : α)
    (h : k ≤ l.length) :
    (l.take k ++ x :: l.drop k).take k = l.take k := by
  rw [List.take_append_of_le_length (by simp [List.length_take]; omega)]
  simp

/-- The normalized content always ends with a newline character. -/
theorem normEndNl_getLast (s : String) :
    (normEndNl s).data.getLast? = some '\n' := by
  unfold normEndNl
  by_cases h : pyEndsWithNl s = true
  · rw [if_pos h]
    unfold pyEndsWithNl at h
    exact of_decide_eq_true h
  · rw [if_neg h]
    have : (s ++ "\n").data = s.data ++ ['\n'] := by
      simp [String.data_append]
    rw [this]
    simp

/-- C6 (counterexample): for insert content `"x\n\n"` the spliced text is
`"x\n\n"` unchanged — the code only appends a newline when one is missing,
it never collapses existing trailing newlines — so the inserted text does
NOT end with exactly one trailing newline. -/
theorem C6_counterexample :
    (insertContentCore ["line1\n"] (DSec.mk "s" 1 1 (some 1) []) none
        InsertPosition.before "x\n\n").1 = ["x\n\n", "line1\n"] ∧
    endsWithExactlyOneNl "x\n\n" = false := by
  exact ⟨rfl, by decide⟩

/-- C6 (amended): `before` splices the normalized content immediately
above the section's first line (index `start_line - 1`), `after`
immediately below the last line of the deepest-last descendant (index
`section_end_with_descendants`), `append` immediately above the section's
own end line (index `end_line - 1`); the inserted text is normalized to
end with **at least** one trailing newline (a newline is appended exactly
when the text does not already end with one). -/
theorem C6_insert_positions (lines : List String) (sec : DSec)
    (r : Option Nat) (content : String)
    (hb : sec.line - 1 ≤ lines.length)
    (ha : sectionEndWithChildren r sec ≤ lines.length)
    (he : sectionEndLine r sec - 1 ≤ lines.length) :
    ((insertContentCore lines sec r InsertPosition.before content).1.eraseIdx
        (sec.line - 1) = lines ∧
      (insertContentCore lines sec r InsertPosition.before content).1[
        sec.line - 1]? = some (normEndNl content) ∧
      (insertContentCore lines sec r InsertPosition.before content).2 =
        sec.line) ∧
    ((insertContentCore lines sec r InsertPosition.after content).1.eraseIdx
        (sectionEndWithChildren r sec) = lines ∧
      (insertContentCore lines sec r InsertPosition.after content).1[
        sectionEndWithChildren r sec]? = some (normEndNl content) ∧
      (insertContentCore lines sec r InsertPosition.after content).2 =
        sectionEndWithChildren r sec + 1) ∧
    ((insertContentCore lines sec r InsertPosition.append content).1.eraseIdx
        (sectionEndLine r sec - 1) = lines ∧
      (insertContentCore lines sec r InsertPosition.append content).1[
        sectionEndLine r sec - 1]? = some (normEndNl content) ∧
      (insertContentCore lines sec r InsertPosition.append content).2 =
        sectionEndLine r sec) ∧
    (normEndNl content).data.getLast? = some '\n' ∧
    (pyEndsWithNl content = true → normEndNl content = content) ∧
    (pyEndsWithNl content = false → normEndNl content = content ++ "\n") := by
  refine ⟨⟨?_, ?_, rfl⟩, ⟨?_, ?_, rfl⟩, ⟨?_, ?_, rfl⟩,
    normEndNl_getLast content, ?_, ?_⟩
  · exact eraseIdx_splice lines _ _ hb
  · exact getElem_splice lines _ _ hb
  · exact eraseIdx_splice lines _ _ ha
  · exact getElem_splice lines _ _ ha
  · exact eraseIdx_splice lines _ _ he
  · exact getElem_splice lines _ _ he
  · intro h
    unfold normEndNl
    rw [if_pos h]
  · intro h
    unfold normEndNl
    rw [if_neg (by simp [h])]

/-- Witness for `C6_insert_positions` on a concrete two-line file. -/
theorem C6_insert_positions_witness :
    ((insertContentCore ["= T\n", "body\n"]
        (DSec.mk "T" 0 1 (some 2) []) none InsertPosition.before
        "new").1.eraseIdx (1 - 1) = ["= T\n", "body\n"] ∧
      (insertContentCore ["= T\n", "body\n"]
        (DSec.mk "T" 0 1 (some 2) []) none InsertPosition.before
        "new").1[(1 : Nat) - 1]? = some (normEndNl "new") ∧
      (insertContentCore ["= T\n", "body\n"]
        (DSec.mk "T" 0 1 (some 2) []) none InsertPosition.before
        "new").2 = 1) ∧
    ((insertContentCore ["= T\n", "body\n"]
        (DSec.mk "T" 0 1 (some 2) []) none InsertPosition.after
        "new").1.eraseIdx
        (sectionEndWithChildren none (DSec.mk "T" 0 1 (some 2) [])) =
        ["= T\n", "body\n"] ∧
      (insertContentCore ["= T\n", "body\n"]
        (DSec.mk "T" 0 1 (some 2) []) none InsertPosition.after
        "new").1[
        sectionEndWithChildren none (DSec.mk "T" 0 1 (some 2) [])]? =
        some (normEndNl "new") ∧
      (insertContentCore ["= T\n", "body\n"]
        (DSec.mk "T" 0 1 (some 2) []) none InsertPosition.after
        "new").2 =
        sectionEndWithChildren none (DSec.mk "T" 0 1 (some 2) []) + 1) ∧
    ((insertContentCore ["= T\n", "body\n"]
        (DSec.mk "T" 0 1 (some 2) []) none InsertPosition.append
        "new").1.eraseIdx
        (sectionEndLine none (DSec.mk "T" 0 1 (some 2) []) - 1) =
        ["= T\n", "body\n"] ∧
      (insertContentCore ["= T\n", "body\n"]
        (DSec.mk "T" 0 1 (some 2) []) none InsertPosition.append
        "new").1[
        sectionEndLine none (DSec.mk "T" 0 1 (some 2) []) - 1]? =
        some (normEndNl "new") ∧
      (insertContentCore ["= T\n", "body\n"]
        (DSec.mk "T" 0 1 (some 2) []) none InsertPosition.append
        "new").2 = sectionEndLine none (DSec.mk "T" 0 1 (some 2) [])) ∧
    (normEndNl "new").data.getLast? = some '\n' ∧
    (pyEndsWithNl "new" = true → normEndNl "new" = "new") ∧
    (pyEndsWithNl "new" = false → normEndNl "new" = "new" ++ "\n") := by
  exact C6_insert_positions ["= T\n", "body\n"]
    (DSec.mk "T" 0 1 (some 2) []) none "new" (by decide) (by decide)
    (by decide)

/-! ## `update_section` title preservation (lines 114–126) -/

/-- `stripped_content.startswith("=") or stripped_content.startswith("#")`
applied to `new_content.lstrip()`. -/
def hasExplicitTitle (content : String) : Bool :=
  decide ((pyLstrip content).data.head? = some '=') ||
  decide ((pyLstrip content).data.head? = some '#')

/-- `"=" * (section.level + 1)`. -/
def headingMarkers (sec : DSec) : String :=
  String.mk (List.replicate (sec.level + 1) '=')

/-- The `preserve_title` branch: prepend
`f"{level_markers} {section.title}\n\n"` unless the left-stripped content
already starts with an explicit heading marker. -/
def titledContent (sec : DSec) (content : String) : String :=
  if hasExplicitTitle content then content
  else headingMarkers sec ++ " " ++ sec.title ++ "\n\n" ++ content

/-- `update_section`'s content preparation: apply the `preserve_title`
branch, then ensure the written content ends with a newline. -/
def prepareUpdateContent (sec : DSec) (content : String)
    (preserveTitle : Bool) : String :=
  normEndNl (if preserveTitle then titledContent sec content else content)

/-- C10: with `preserve_title` the original heading line (level+1 equals
signs, a space, the original title, then a blank line) is prepended iff
the left-stripped content does not begin with `=` or `#`; and the written
content always ends with a newline, for either value of `preserve_title`. -/
theorem C10_update_preserve_title (sec : DSec) (content : String) :
    (prepareUpdateContent sec content true).data.getLast? = some '\n' ∧
    (prepareUpdateContent sec content false).data.getLast? = some '\n' ∧
    prepareUpdateContent sec content true =
      normEndNl (titledContent sec content) ∧
    (titledContent sec content =
        headingMarkers sec ++ " " ++ sec.title ++ "\n\n" ++ content ↔
      hasExplicitTitle content = false) := by
  refine ⟨normEndNl_getLast _, normEndNl_getLast _, rfl, ?_, ?_⟩
  · intro heq
    by_cases h : hasExplicitTitle content = true
    · exfalso
      unfold titledContent at heq
      rw [if_pos h] at heq
      have hlen := congrArg String.length heq
      simp only [String.length_append] at hlen
      have hm : (headingMarkers sec).length = sec.level + 1 := by
        simp [headingMarkers, String.length]
      omega
    · simpa using h
  · intro h
    unfold titledContent
    rw [if_neg (by simp [h])]

/-! ## Claim C3: the stack algorithm realizes nearest-preceding-smaller-level
parenthood

The headings a document contributes to `_parse_sections` are the lines
matched by `SECTION_PATTERN`, each with its 1-based line number, its level
(`len(equals) - 1`) and its attribute-substituted title. -/

structure Heading where
  line : Nat
  level : Nat
  title : String

instance : Inhabited Heading := ⟨⟨0, 0, ""⟩⟩

/-- The heading sequence recognized by the parser loop. -/
def headsOf (attrs : List (String × String)) (lines : List String) :
    List Heading :=
  lines.enum.filterMap fun il =>
    (matchSECTION il.2).map fun kt =>
      ⟨il.1 + 1, kt.1 - 1, substAttrs attrs kt.2⟩

/-- `stepLine` restricted to a recognized heading (the body of the
`if match:` branch). -/
def stepHead (st : AState) (h : Heading) : AState :=
  if h.level = 0 then
    let sec := MSec.mk h.title 0 (titleToSlug h.title) h.line []
    { roots := st.roots ++ flushStack st.stack
      stack := [sec]
      docTitle := h.title }
  else
    let rs := popPhase st.roots st.stack h.level
    match rs.2 with
    | p :: _ =>
      let sec := MSec.mk h.title h.level
        (p.path ++ "." ++ titleToSlug h.title) h.line []
      { roots := rs.1, stack := sec :: rs.2, docTitle := st.docTitle }
    | [] =>
      let sec := MSec.mk h.title h.level (titleToSlug h.title) h.line []
      { roots := rs.1, stack := [sec], docTitle := st.docTitle }

theorem stepLine_eq_stepHead (attrs : List (String × String)) (st : AState)
    (n : Nat) (line : String) :
    stepLine attrs st n line =
      match matchSECTION line with
      | none => st
      | some kt => stepHead st ⟨n, kt.1 - 1, substAttrs attrs kt.2⟩ := by
  unfold stepLine stepHead
  rcases matchSECTION line with _ | ⟨k, raw⟩ <;> rfl

/-- The heading fold underlying `parseSectionsA`. -/
def foldHeads (hs : List Heading) : AState :=
  hs.foldl stepHead AState.init

/-- Finalize a parser state into the top-level section forest. -/
def flushA (st : AState) : List MSec :=
  st.roots ++ flushStack st.stack

theorem fold_stepLine_filterMap (attrs : List (String × String)) :
    ∀ (l : List (Nat × String)) (st : AState),
      l.foldl (fun st il => stepLine attrs st (il.1 + 1) il.2) st =
        (l.filterMap fun il =>
            (matchSECTION il.2).map fun kt =>
              (⟨il.1 + 1, kt.1 - 1, substAttrs attrs kt.2⟩ : Heading)).foldl
          stepHead st := by
  intro l
  induction l with
  | nil => intro st; rfl
  | cons il t ih =>
    intro st
    rw [List.foldl_cons, List.filterMap_cons]
    rcases hm : matchSECTION il.2 with _ | ⟨k, raw⟩
    · rw [stepLine_eq_stepHead, hm]
      exact ih st
    · rw [stepLine_eq_stepHead, hm]
      exact ih _

/-- `parseSectionsA` is the heading fold followed by the final flush. -/
theorem parseSectionsA_eq_foldHeads (attrs : List (String × String))
    (lines : List String) :
    (parseSectionsA attrs lines).1 =
      flushA (foldHeads (headsOf attrs lines)) := by
  unfold parseSectionsA foldHeads headsOf flushA
  rw [fold_stepLine_filterMap]

/-! ### The level stack and its nearest-smaller characterization -/

/-- Projection of the section stack to `(line, level)` pairs. -/
def stackProj (stack : List MSec) : List (Nat × Nat) :=
  stack.map fun s => (s.line, s.level)

/-- The `(line, level)` stack transition of one recognized heading. -/
def lvlStep (st : List (Nat × Nat)) (h : Heading) : List (Nat × Nat) :=
  if h.level = 0 then [(h.line, 0)]
  else (h.line, h.level) :: st.dropWhile (fun p => h.level ≤ p.2)

/-- The `(line, level)` stack left by a heading sequence. -/
def lvlStackOf (hs : List Heading) : List (Nat × Nat) :=
  hs.foldl lvlStep []

theorem addChild_line (s c : MSec) : (s.addChild c).line = s.line := by
  rcases s with ⟨t, l, p, n, cs⟩
  rfl

theorem addChild_level (s c : MSec) : (s.addChild c).level = s.level := by
  rcases s with ⟨t, l, p, n, cs⟩
  rfl

/-- One parser step projects to one level-stack step. -/
theorem stackProj_stepHead (st : AState) (h : Heading) :
    stackProj (stepHead st h).stack = lvlStep (stackProj st.stack) h := by
  have hproj : stackProj (st.stack.dropWhile (fun s => h.level ≤ s.level)) =
      (stackProj st.stack).dropWhile (fun p => h.level ≤ p.2) := by
    unfold stackProj
    rw [List.dropWhile_map]
    rfl
  unfold stepHead popPhase lvlStep
  by_cases h0 : h.level = 0
  · rw [if_pos h0, if_pos h0]
    rfl
  · rw [if_neg h0, if_neg h0, ← hproj]
    rcases hdrop : st.stack.takeWhile (fun s => h.level ≤ s.level) with
        _ | ⟨d, ds⟩ <;>
      rcases hkept : st.stack.dropWhile (fun s => h.level ≤ s.level) with
        _ | ⟨p, ks⟩ <;>
      rw [hdrop, hkept] <;>
      simp [stackProj, addChild_line, addChild_level] <;>
      exact ⟨rfl, rfl⟩

/-- The stack projection of the heading fold is the level stack. -/
theorem stackProj_foldHeads (hs : List Heading) :
    ∀ st : AState,
      stackProj (hs.foldl stepHead st).stack =
        hs.foldl lvlStep (stackProj st.stack) := by
  induction hs with
  | nil => intro st; rfl
  | cons h t ih =>
    intro st
    rw [List.foldl_cons, List.foldl_cons, ih, stackProj_stepHead]

/-- The line of the nearest heading with level `< lvl`, scanning a
reversed prefix from the most recent heading backwards.  This is the
specification side of claim C3: `lastSmaller prev.reverse lvl` is the
line of the nearest preceding heading whose level is smaller than `lvl`,
or `none` when no such heading exists. -/
def lastSmaller : List Heading → Nat → Option Nat
  | [], _ => none
  | h :: rest, lvl =>
    if h.level < lvl then some h.line else lastSmaller rest lvl

theorem lastSmaller_zero (l : List Heading) : lastSmaller l 0 = none := by
  induction l with
  | nil => rfl
  | cons h t ih =>
    unfold lastSmaller
    rw [if_neg (by omega)]
    exact ih

/-- Composing a coarser `dropWhile` before a finer one is the finer one. -/
theorem dropWhile_dropWhile {α : Type} (p q : α → Bool) (l : List α)
    (himp : ∀ x, q x = true → p x = true) :
    (l.dropWhile q).dropWhile p = l.dropWhile p := by
  induction l with
  | nil => rfl
  | cons x xs ih =>
    by_cases hq : q x = true
    · rw [List.dropWhile_cons_of_pos hq, ih,
        List.dropWhile_cons_of_pos (himp x hq)]
    · rw [List.dropWhile_cons_of_neg hq]

/-- Key combinatorial fact: after popping levels `≥ lvl`, the line on top
of the level stack is exactly the line of the nearest preceding heading
with level `< lvl`. -/
theorem lvlStack_parent_eq (prev : List Heading) :
    ∀ lvl : Nat, 1 ≤ lvl →
      ((lvlStackOf prev).dropWhile (fun p => lvl ≤ p.2)).head?.map
          Prod.fst =
        lastSmaller prev.reverse lvl := by
  induction prev using List.reverseRecOn with
  | nil => intro lvl _; rfl
  | append_singleton prev h ih =>
    intro lvl hlvl
    have hfold : lvlStackOf (prev ++ [h]) = lvlStep (lvlStackOf prev) h := by
      unfold lvlStackOf
      rw [List.foldl_append]
      rfl
    rw [hfold, List.reverse_append]
    simp only [List.reverse_singleton, List.singleton_append]
    unfold lvlStep
    by_cases h0 : h.level = 0
    · rw [if_pos h0]
      rw [List.dropWhile_cons_of_neg (by simp [h0]; omega)]
      unfold lastSmaller
      rw [if_pos (by omega)]
      rfl
    · rw [if_neg h0]
      by_cases hle : lvl ≤ h.level
      · rw [List.dropWhile_cons_of_pos (by simp [hle])]
        rw [dropWhile_dropWhile _ _ _
          (fun x hx => by
            simp only [decide_eq_true_eq] at hx ⊢
            omega)]
        unfold lastSmaller
        rw [if_neg (by omega)]
        exact ih lvl hlvl
      · rw [List.dropWhile_cons_of_neg (by simp [hle])]
        unfold lastSmaller
        rw [if_pos (by omega)]
        rfl

/-! ### Parent/child pairs and root lines of a section forest -/

mutual

/-- All `(parent.line, child.line)` pairs of a section tree. -/
def pairsT : MSec → List (Nat × Nat)
  | .mk _ _ _ ln cs => (cs.map fun c => (ln, c.line)) ++ pairsL cs

/-- All `(parent.line, child.line)` pairs of a forest. -/
def pairsL : List MSec → List (Nat × Nat)
  | [] => []
  | s :: ss => pairsT s ++ pairsL ss

end

/-- The source lines of the top-level sections of a forest. -/
def rootLines (forest : List MSec) : List Nat :=
  forest.map MSec.line

mutual

/-- The source lines of all sections of a tree. -/
def linesT : MSec → List Nat
  | .mk _ _ _ ln cs => ln :: linesL cs

/-- The source lines of all sections of a forest. -/
def linesL : List MSec → List Nat
  | [] => []
  | s :: ss => linesT s ++ linesL ss

end

mutual

/-- The titles of all sections of a tree. -/
def titlesT : MSec → List String
  | .mk t _ _ _ cs => t :: titlesL cs

/-- The titles of all sections of a forest. -/
def titlesL : List MSec → List String
  | [] => []
  | s :: ss => titlesT s ++ titlesL ss

end

theorem pairsL_append (a b : List MSec) :
    pairsL (a ++ b) = pairsL a ++ pairsL b := by
  induction a with
  | nil => rfl
  | cons s ss ih =>
    simp [pairsL, ih, List.append_assoc]

/-- Appending a child adds exactly the pairs of the child's subtree plus
the new parent-child pair. -/
theorem pairsT_addChild (s c : MSec) (z : Nat × Nat) :
    z ∈ pairsT (s.addChild c) ↔
      z ∈ pairsT s ∨ z ∈ pairsT c ∨ z = (s.line, c.line) := by
  rcases s with ⟨t, l, p, ln, cs⟩
  simp only [MSec.addChild, pairsT, MSec.line, List.map_append,
    List.map_cons, List.map_nil, pairsL_append, pairsL, List.mem_append,
    List.mem_cons, List.not_mem_nil, or_false, List.append_nil]
  tauto

theorem linesL_append (a b : List MSec) :
    linesL (a ++ b) = linesL a ++ linesL b := by
  induction a with
  | nil => rfl
  | cons s ss ih =>
    simp [linesL, ih, List.append_assoc]

theorem linesL_singleton (s : MSec) : linesL [s] = linesT s := by
  simp [linesL]

theorem linesT_addChild (s c : MSec) (y : Nat) :
    y ∈ linesT (s.addChild c) ↔ y ∈ linesT s ∨ y ∈ linesT c := by
  rcases s with ⟨t, l, p, ln, cs⟩
  simp only [MSec.addChild, linesT, linesL_append, linesL,
    List.mem_cons, List.mem_append, List.append_nil]
  tauto

theorem linesT_leaf (t : String) (l : Nat) (p : String) (n : Nat) :
    linesT (MSec.mk t l p n []) = [n] := by
  simp [linesT, linesL]

/-- Line membership is transported along `collapse1` when the seeds
differ by exactly one extra line. -/
theorem collapse1_linesMem (ks : List MSec) :
    ∀ (t t' : MSec) (w : Nat),
      (∀ y, y ∈ linesT t' ↔ y ∈ linesT t ∨ y = w) →
      ∀ y, y ∈ linesT (collapse1 t' ks) ↔
        y ∈ linesT (collapse1 t ks) ∨ y = w := by
  induction ks with
  | nil => intro t t' w hiff y; exact hiff y
  | cons q ks ih =>
    intro t t' w hiff y
    simp only [collapse1]
    refine ih (q.addChild t) (q.addChild t') w ?_ y
    intro y2
    rw [linesT_addChild, linesT_addChild, hiff y2]
    tauto

theorem collapse1_snoc (xs : List MSec) :
    ∀ (t p : MSec) (ys : List MSec),
      collapse1 t (xs ++ p :: ys) =
        collapse1 (p.addChild (collapse1 t xs)) ys := by
  induction xs with
  | nil => intro t p ys; rfl
  | cons x xs ih =>
    intro t p ys
    simp only [List.cons_append, collapse1]
    exact ih (x.addChild t) p ys

/-- The pop phase (collapsing the popped prefix) does not change the
flushed forest. -/
theorem popPhase_flush (roots stack : List MSec) (lvl : Nat) :
    (popPhase roots stack lvl).1 ++
        flushStack (popPhase roots stack lvl).2 =
      roots ++ flushStack stack := by
  have hsplit : stack.takeWhile (fun s => lvl ≤ s.level) ++
      stack.dropWhile (fun s => lvl ≤ s.level) = stack :=
    List.takeWhile_append_dropWhile _ _
  unfold popPhase
  rcases hdrop : stack.takeWhile (fun s => lvl ≤ s.level) with _ | ⟨d, ds⟩ <;>
    rcases hkept : stack.dropWhile (fun s => lvl ≤ s.level) with
      _ | ⟨p, ks⟩ <;>
    rw [hdrop, hkept] <;>
    rw [hdrop, hkept] at hsplit <;>
    simp only [← hsplit]
  · rfl
  · rfl
  · simp [flushStack, List.append_nil]
  · simp only [flushStack, List.cons_append, collapse1]
    rw [collapse1_snoc]

/-- Lines are preserved along `collapse1` when the seeds agree on lines. -/
theorem collapse1_line (ks : List MSec) :
    ∀ t t' : MSec, t'.line = t.line →
      (collapse1 t' ks).line = (collapse1 t ks).line := by
  induction ks with
  | nil => intro t t' h; exact h
  | cons q ks ih =>
    intro t t' h
    simp only [collapse1]
    exact ih (q.addChild t) (q.addChild t')
      (by rw [addChild_line, addChild_line])

/-- Pair membership is transported along `collapse1` when the seeds agree
on lines and differ by exactly one extra pair. -/
theorem collapse1_pairs (ks : List MSec) :
    ∀ (t t' : MSec) (w : Nat × Nat),
      t'.line = t.line →
      (∀ z, z ∈ pairsT t' ↔ z ∈ pairsT t ∨ z = w) →
      ∀ z, z ∈ pairsT (collapse1 t' ks) ↔
        z ∈ pairsT (collapse1 t ks) ∨ z = w := by
  induction ks with
  | nil => intro t t' w _ hiff z; exact hiff z
  | cons q ks ih =>
    intro t t' w hline hiff z
    simp only [collapse1]
    refine ih (q.addChild t) (q.addChild t') w
      (by rw [addChild_line, addChild_line]) ?_ z
    intro z2
    rw [pairsT_addChild, pairsT_addChild, hiff z2, hline]
    tauto

/-- A freshly created section is a leaf with no pairs. -/
theorem pairsT_leaf (t : String) (l : Nat) (p : String) (n : Nat) :
    pairsT (MSec.mk t l p n []) = [] := by
  simp [pairsT, pairsL]

theorem line_leaf (t : String) (l : Nat) (p : String) (n : Nat) :
    (MSec.mk t l p n []).line = n := rfl

/-! ### The effect of one heading on the flushed forest -/

/-- A level-0 heading appends a fresh leaf root. -/
theorem flushA_stepHead_zero (st : AState) (h : Heading)
    (h0 : h.level = 0) :
    flushA (stepHead st h) =
      flushA st ++ [MSec.mk h.title 0 (titleToSlug h.title) h.line []] := by
  unfold stepHead flushA
  rw [if_pos h0]
  simp [flushStack, collapse1, List.append_assoc]

/-- A heading of level ≥ 1 that empties the stack appends a fresh leaf
root. -/
theorem flushA_stepHead_root (st : AState) (h : Heading)
    (h0 : ¬ h.level = 0)
    (hk : st.stack.dropWhile (fun s => h.level ≤ s.level) = []) :
    flushA (stepHead st h) =
      flushA st ++
        [MSec.mk h.title h.level (titleToSlug h.title) h.line []] := by
  have hflush := popPhase_flush st.roots st.stack h.level
  have h2 : (popPhase st.roots st.stack h.level).2 = [] := by
    unfold popPhase
    rcases hdrop : st.stack.takeWhile (fun s => h.level ≤ s.level) with
      _ | ⟨d, ds⟩ <;> rw [hdrop, hk]
  have hstep : stepHead st h =
      { roots := (popPhase st.roots st.stack h.level).1
        stack := [MSec.mk h.title h.level (titleToSlug h.title) h.line []]
        docTitle := st.docTitle } := by
    unfold stepHead
    rw [if_neg h0]
    simp only [h2]
  have hold : flushA st = (popPhase st.roots st.stack h.level).1 := by
    unfold flushA
    rw [← hflush, h2]
    simp [flushStack]
  rw [hstep, hold]
  unfold flushA flushStack
  rfl

theorem pairsL_singleton (s : MSec) : pairsL [s] = pairsT s := by
  simp [pairsL]

/-- A heading of level ≥ 1 whose pop phase leaves a section with `p`'s
line on top of the stack becomes a child of that section: the flushed
forest gains exactly the pair `(p.line, h.line)` and keeps its root
lines. -/
theorem flushA_stepHead_child (st : AState) (h : Heading)
    (h0 : ¬ h.level = 0) (p : MSec) (ks : List MSec)
    (hk : st.stack.dropWhile (fun s => h.level ≤ s.level) = p :: ks) :
    (∀ z, z ∈ pairsL (flushA (stepHead st h)) ↔
      z ∈ pairsL (flushA st) ∨ z = (p.line, h.line)) ∧
    rootLines (flushA (stepHead st h)) = rootLines (flushA st) ∧
    (∀ y, y ∈ linesL (flushA (stepHead st h)) ↔
      y ∈ linesL (flushA st) ∨ y = h.line) := by
  have hflush := popPhase_flush st.roots st.stack h.level
  have h2 : ∃ q, (popPhase st.roots st.stack h.level).2 = q :: ks ∧
      q.line = p.line := by
    unfold popPhase
    rcases hdrop : st.stack.takeWhile (fun s => h.level ≤ s.level) with
      _ | ⟨d, ds⟩ <;> rw [hdrop, hk]
    · exact ⟨p, rfl, rfl⟩
    · exact ⟨p.addChild (collapse1 d ds), rfl, addChild_line p _⟩
  rcases h2 with ⟨q, hq, hqline⟩
  have hstep : stepHead st h =
      { roots := (popPhase st.roots st.stack h.level).1
        stack := MSec.mk h.title h.level
            (q.path ++ "." ++ titleToSlug h.title) h.line [] :: q :: ks
        docTitle := st.docTitle } := by
    unfold stepHead
    rw [if_neg h0]
    simp only [hq]
  set sec := MSec.mk h.title h.level
    (q.path ++ "." ++ titleToSlug h.title) h.line [] with hsec
  have hnew : flushA (stepHead st h) =
      (popPhase st.roots st.stack h.level).1 ++
        [collapse1 (q.addChild sec) ks] := by
    rw [hstep]
    unfold flushA flushStack
    rfl
  have hold : flushA st =
      (popPhase st.roots st.stack h.level).1 ++ [collapse1 q ks] := by
    unfold flushA
    rw [← hflush, hq]
    rfl
  have hpairsT : ∀ z, z ∈ pairsT (q.addChild sec) ↔
      z ∈ pairsT q ∨ z = (p.line, h.line) := by
    intro z
    rw [pairsT_addChild]
    have hsl : sec.line = h.line := rfl
    have hsp : pairsT sec = [] := pairsT_leaf _ _ _ _
    rw [hsp, hsl, hqline]
    simp
  refine ⟨?_, ?_, ?_⟩
  · intro z
    rw [hnew, hold, pairsL_append, pairsL_append, pairsL_singleton,
      pairsL_singleton, List.mem_append, List.mem_append,
      collapse1_pairs ks q (q.addChild sec) (p.line, h.line)
        (addChild_line q sec) hpairsT z]
    tauto
  · rw [hnew, hold]
    unfold rootLines
    simp only [List.map_append, List.map_cons, List.map_nil]
    rw [collapse1_line ks q (q.addChild sec) (addChild_line q sec)]
  · intro y
    have hlinesT : ∀ y2, y2 ∈ linesT (q.addChild sec) ↔
        y2 ∈ linesT q ∨ y2 = h.line := by
      intro y2
      rw [linesT_addChild]
      have hsl : linesT sec = [h.line] := linesT_leaf _ _ _ _
      rw [hsl]
      simp
    rw [hnew, hold, linesL_append, linesL_append, linesL_singleton,
      linesL_singleton, List.mem_append, List.mem_append,
      collapse1_linesMem ks q (q.addChild sec) h.line hlinesT y]
    tauto

/-! ### The specification assignment and the simulation -/

/-- Specification side of C3, child pairs: processing the headings in
order (with `prev` the already-processed prefix), a heading `h` whose
nearest preceding heading with level `< h.level` exists (line `pl`)
contributes the parent-child pair `(pl, h.line)`. -/
def specPairsAux (prev : List Heading) : List Heading → List (Nat × Nat)
  | [] => []
  | h :: rest =>
    ((lastSmaller prev.reverse h.level).map fun pl => (pl, h.line)).toList
      ++ specPairsAux (prev ++ [h]) rest

/-- Specification side of C3, roots: a heading with no preceding heading
of smaller level becomes a new top-level root. -/
def specRootsAux (prev : List Heading) : List Heading → List Nat
  | [] => []
  | h :: rest =>
    (if (lastSmaller prev.reverse h.level).isNone then [h.line] else [])
      ++ specRootsAux (prev ++ [h]) rest

def specPairs (hs : List Heading) : List (Nat × Nat) := specPairsAux [] hs

def specRoots (hs : List Heading) : List Nat := specRootsAux [] hs

/-- Bridge between the parser stack and the specification: after the
pop phase for a heading of level ≥ 1, the line on top of the remaining
stack is the line of the nearest preceding smaller-level heading. -/
theorem parent_bridge (prev : List Heading) (h : Heading)
    (h1 : 1 ≤ h.level) :
    ((foldHeads prev).stack.dropWhile
        (fun s => h.level ≤ s.level)).head?.map MSec.line =
      lastSmaller prev.reverse h.level := by
  have hproj : stackProj (foldHeads prev).stack = lvlStackOf prev := by
    unfold foldHeads lvlStackOf
    have hfold := stackProj_foldHeads prev AState.init
    simpa [stackProj, AState.init] using hfold
  have hdw : stackProj ((foldHeads prev).stack.dropWhile
        (fun s => h.level ≤ s.level)) =
      (lvlStackOf prev).dropWhile (fun pr => h.level ≤ pr.2) := by
    rw [← hproj]
    unfold stackProj
    rw [List.dropWhile_map]
    rfl
  have hkey := lvlStack_parent_eq prev h.level h1
  rw [← hdw] at hkey
  rw [← hkey]
  unfold stackProj
  rw [List.head?_map, Option.map_map]
  rfl

theorem specPairsAux_cons (prev : List Heading) (h : Heading)
    (rest : List Heading) :
    specPairsAux prev (h :: rest) =
      ((lastSmaller prev.reverse h.level).map
          fun pl => (pl, h.line)).toList ++
        specPairsAux (prev ++ [h]) rest := rfl

theorem specRootsAux_cons (prev : List Heading) (h : Heading)
    (rest : List Heading) :
    specRootsAux prev (h :: rest) =
      (if (lastSmaller prev.reverse h.level).isNone then [h.line] else [])
        ++ specRootsAux (prev ++ [h]) rest := rfl

theorem rootLines_append (a b : List MSec) :
    rootLines (a ++ b) = rootLines a ++ rootLines b := by
  unfold rootLines
  rw [List.map_append]

theorem rootLines_leaf (t : String) (l : Nat) (p : String) (n : Nat) :
    rootLines [MSec.mk t l p n []] = [n] := rfl

/-- The simulation: processing a heading suffix adds exactly the
specification's pairs and roots to the flushed forest. -/
theorem flushA_spec (rest : List Heading) :
    ∀ prev : List Heading,
      (∀ z, z ∈ pairsL (flushA (foldHeads (prev ++ rest))) ↔
        z ∈ pairsL (flushA (foldHeads prev)) ∨
          z ∈ specPairsAux prev rest) ∧
      (∀ y, y ∈ rootLines (flushA (foldHeads (prev ++ rest))) ↔
        y ∈ rootLines (flushA (foldHeads prev)) ∨
          y ∈ specRootsAux prev rest) := by
  induction rest with
  | nil =>
    intro prev
    simp [specPairsAux, specRootsAux]
  | cons h t ih =>
    intro prev
    have happ : prev ++ h :: t = (prev ++ [h]) ++ t := by simp
    have hfold1 : foldHeads (prev ++ [h]) = stepHead (foldHeads prev) h := by
      unfold foldHeads
      rw [List.foldl_append]
      rfl
    rcases ih (prev ++ [h]) with ⟨ihp, ihr⟩
    by_cases h0 : h.level = 0
    · have hspec0 : lastSmaller prev.reverse h.level = none := by
        rw [h0]
        exact lastSmaller_zero _
      have hstep := flushA_stepHead_zero (foldHeads prev) h h0
      constructor
      · intro z
        rw [happ, ihp z, hfold1, hstep, pairsL_append, pairsL_singleton,
          pairsT_leaf, specPairsAux_cons, hspec0]
        simp
      · intro y
        rw [happ, ihr y, hfold1, hstep, rootLines_append, rootLines_leaf,
          specRootsAux_cons, hspec0]
        simp [List.mem_append]
        tauto
    · have h1 : 1 ≤ h.level := by omega
      have hbridge := parent_bridge prev h h1
      rcases hk : (foldHeads prev).stack.dropWhile
          (fun s => h.level ≤ s.level) with _ | ⟨p, ks⟩
      · -- no parent: new top-level root
        have hspec : lastSmaller prev.reverse h.level = none := by
          rw [← hbridge, hk]
          rfl
        have hstep := flushA_stepHead_root (foldHeads prev) h h0 hk
        constructor
        · intro z
          rw [happ, ihp z, hfold1, hstep, pairsL_append, pairsL_singleton,
            pairsT_leaf, specPairsAux_cons, hspec]
          simp
        · intro y
          rw [happ, ihr y, hfold1, hstep, rootLines_append, rootLines_leaf,
            specRootsAux_cons, hspec]
          simp [List.mem_append]
          tauto
      · -- child of the section on top of the popped stack
        have hspec : lastSmaller prev.reverse h.level = some p.line := by
          rw [← hbridge, hk]
          rfl
        have hstep := flushA_stepHead_child (foldHeads prev) h h0 p ks hk
        constructor
        · intro z
          rw [happ, ihp z, hfold1, hstep.1 z, specPairsAux_cons, hspec]
          simp [or_assoc]
        · intro y
          rw [happ, ihr y, hfold1, hstep.2.1, specRootsAux_cons, hspec]
          simp

/-- Processing a heading suffix adds exactly the headings' lines to the
node lines of the flushed forest. -/
theorem flushA_lines (rest : List Heading) :
    ∀ (prev : List Heading) (y : Nat),
      y ∈ linesL (flushA (foldHeads (prev ++ rest))) ↔
        y ∈ linesL (flushA (foldHeads prev)) ∨
          y ∈ rest.map Heading.line := by
  induction rest with
  | nil =>
    intro prev y
    simp
  | cons h t ih =>
    intro prev y
    have happ : prev ++ h :: t = (prev ++ [h]) ++ t := by simp
    have hfold1 : foldHeads (prev ++ [h]) = stepHead (foldHeads prev) h := by
      unfold foldHeads
      rw [List.foldl_append]
      rfl
    by_cases h0 : h.level = 0
    · have hstep := flushA_stepHead_zero (foldHeads prev) h h0
      rw [happ, ih (prev ++ [h]) y, hfold1, hstep, linesL_append,
        linesL_singleton, linesT_leaf]
      simp [List.mem_append, or_assoc]
    · rcases hk : (foldHeads prev).stack.dropWhile
          (fun s => h.level ≤ s.level) with _ | ⟨p, ks⟩
      · have hstep := flushA_stepHead_root (foldHeads prev) h h0 hk
        rw [happ, ih (prev ++ [h]) y, hfold1, hstep, linesL_append,
          linesL_singleton, linesT_leaf]
        simp [List.mem_append, or_assoc]
      · have hstep := flushA_stepHead_child (foldHeads prev) h h0 p ks hk
        rw [happ, ih (prev ++ [h]) y, hfold1, hstep.2.2 y]
        simp [or_assoc]

/-- The sections of the produced forest are exactly the recognized
headings (identified by source line). -/
theorem linesL_foldHeads (hs : List Heading) (y : Nat) :
    y ∈ linesL (flushA (foldHeads hs)) ↔ y ∈ hs.map Heading.line := by
  have hmain := flushA_lines hs [] y
  rw [List.nil_append] at hmain
  rw [hmain]
  simp [flushA, foldHeads, flushStack, linesL, AState.init]

/-- C3: in the forest produced by `_parse_sections`, the parent-child
pairs (by source line) are exactly those assigning to each recognized
heading the nearest preceding heading with strictly smaller level, and
the top-level roots are exactly the headings with no such predecessor.
(`pairsL` collects every `(parent.line, child.line)` pair of the tree;
`specPairsAux`/`specRootsAux` scan the heading sequence and pair each
heading with the nearest preceding smaller-level heading via
`lastSmaller`.) -/
theorem C3_nearest_smaller_parent (attrs : List (String × String))
    (lines : List String) :
    (∀ z, z ∈ pairsL (parseSectionsA attrs lines).1 ↔
      z ∈ specPairs (headsOf attrs lines)) ∧
    (∀ y, y ∈ rootLines (parseSectionsA attrs lines).1 ↔
      y ∈ specRoots (headsOf attrs lines)) := by
  have hmain := flushA_spec (headsOf attrs lines) []
  rcases hmain with ⟨hp, hr⟩
  constructor
  · intro z
    rw [parseSectionsA_eq_foldHeads]
    have := hp z
    rw [List.nil_append] at this
    rw [this]
    unfold specPairs
    simp [flushA, foldHeads, flushStack, pairsL, AState.init]
  · intro y
    rw [parseSectionsA_eq_foldHeads]
    have := hr y
    rw [List.nil_append] at this
    rw [this]
    unfold specRoots
    simp [flushA, foldHeads, flushStack, rootLines, AState.init]

/-! ## `dacli/services/validation_service.py`

`validate_structure(index, docs_root)` is embedded with the file system
abstracted: `resolve` models `Path.resolve`, `rel` models the
`path.relative_to(docs_root_resolved)` computation together with its
`except ValueError` fallback, and `foundFiles` models the union of the
`find_doc_files(docs_root, "*.adoc")` and `find_doc_files(docs_root,
"*.md")` results (each entry is subsequently resolved, as in the source).
The timing field is omitted. -/

structure CircError : Type where
  file : String
  message : String
  includeChain : List String
deriving DecidableEq

structure ParseWarn : Type where
  ptype : String
  file : String
  line : Nat
  message : String
deriving DecidableEq

structure IncludeInfoV : Type where
  srcFile : String
  srcLine : Nat
  targetPath : String
  targetExists : Bool
deriving DecidableEq

/-- A parsed document as seen by the validation service; `includes = none`
models a document without the `includes` attribute (`hasattr` false). -/
structure VDoc : Type where
  parseWarnings : List ParseWarn
  includes : Option (List IncludeInfoV)
deriving DecidableEq

structure VIndex : Type where
  circularIncludeErrors : List CircError
  indexedFiles : List String
  documents : List VDoc
deriving DecidableEq

structure VError : Type where
  etype : String
  path : String
  includePath : Option String
  message : String
deriving DecidableEq

structure VWarn : Type where
  wtype : String
  path : String
  message : String
deriving DecidableEq

/-- The `circular_include` error entries (loop at lines 39–49). -/
def circErrorsOf (rel : String → String) (index : VIndex) : List VError :=
  index.circularIncludeErrors.map fun e =>
    ⟨"circular_include", rel e.file, none, e.message⟩

/-- The `circular_files` set (lines 50–53): the erroring file and every
chain entry, resolved. -/
def circularFilesOf (resolve : String → String) (index : VIndex) :
    List String :=
  index.circularIncludeErrors.flatMap fun e =>
    resolve e.file :: e.includeChain.map resolve

/-- `indexed_resolved` (line 67). -/
def indexedResolved (resolve : String → String) (index : VIndex) :
    List String :=
  index.indexedFiles.map resolve

/-- The files reported as orphaned (lines 68–78): resolved doc files that
are neither indexed nor involved in a circular include. -/
def orphanFiles (resolve : String → String) (foundFiles : List String)
    (index : VIndex) : List String :=
  (foundFiles.map resolve).filter fun f =>
    decide (f ∉ indexedResolved resolve index) &&
    decide (f ∉ circularFilesOf resolve index)

def orphanWarnings (resolve rel : String → String)
    (foundFiles : List String) (index : VIndex) : List VWarn :=
  (orphanFiles resolve foundFiles index).map fun f =>
    ⟨"orphaned_file", rel f, "File is not included in any document"⟩

/-- The propagated parse warnings (lines 81–91). -/
def parseWarningsOf (rel : String → String) (index : VIndex) :
    List VWarn :=
  index.documents.flatMap fun d =>
    d.parseWarnings.map fun pw =>
      ⟨pw.ptype, rel pw.file ++ ":" ++ toString pw.line, pw.message⟩

/-- The `unresolved_include` error entries (lines 94–113); the Python
message wraps the relative target in single quotes. -/
def unresolvedErrorsOf (rel : String → String) (index : VIndex) :
    List VError :=
  index.documents.flatMap fun d =>
    match d.includes with
    | none => []
    | some incs =>
      (incs.filter fun i => !i.targetExists).map fun i =>
        ⟨"unresolved_include",
         rel i.srcFile ++ ":" ++ toString i.srcLine,
         some (rel i.targetPath),
         "Include file " ++ rel i.targetPath ++ " not found"⟩

structure VReport : Type where
  valid : Bool
  errors : List VError
  warnings : List VWarn
deriving DecidableEq

/-- `validate_structure`: errors are the circular-include entries followed
by the unresolved-include entries; warnings are the orphaned files
followed by the propagated parse warnings; `valid` iff no errors. -/
def validateStructure (resolve rel : String → String)
    (foundFiles : List String) (index : VIndex) : VReport :=
  let errors := circErrorsOf rel index ++ unresolvedErrorsOf rel index
  let warnings := orphanWarnings resolve rel foundFiles index ++
    parseWarningsOf rel index
  ⟨errors.isEmpty, errors, warnings⟩

/-- C8: each recorded circular-include entry yields a `circular_include`
error in the report; a file appearing in any recorded circular-include
chain (or as the erroring file itself) is never among the files reported
as `orphaned_file`; every error type is `circular_include` or
`unresolved_include`; and `valid` holds iff the error list is empty. -/
theorem C8_validation (resolve rel : String → String)
    (foundFiles : List String) (index : VIndex) :
    (∀ e ∈ index.circularIncludeErrors,
      (⟨"circular_include", rel e.file, none, e.message⟩ : VError) ∈
        (validateStructure resolve rel foundFiles index).errors) ∧
    (∀ q : String,
      (∃ ce ∈ index.circularIncludeErrors,
        q = ce.file ∨ q ∈ ce.includeChain) →
      resolve q ∉ orphanFiles resolve foundFiles index) ∧
    (∀ e ∈ (validateStructure resolve rel foundFiles index).errors,
      e.etype = "circular_include" ∨ e.etype = "unresolved_include") ∧
    ((validateStructure resolve rel foundFiles index).valid = true ↔
      (validateStructure resolve rel foundFiles index).errors = []) := by
  refine ⟨?_, ?_, ?_, ?_⟩
  · intro e he
    apply List.mem_append_left
    exact List.mem_map_of_mem _ he
  · rintro q ⟨ce, hce, hq⟩ hmem
    have hcirc : resolve q ∈ circularFilesOf resolve index := by
      unfold circularFilesOf
      rw [List.mem_flatMap]
      refine ⟨ce, hce, ?_⟩
      rcases hq with rfl | hq
      · exact List.mem_cons_self _ _
      · exact List.mem_cons_of_mem _ (List.mem_map_of_mem _ hq)
    unfold orphanFiles at hmem
    rcases List.mem_filter.mp hmem with ⟨_, hpred⟩
    rcases Bool.and_eq_true_iff.mp hpred with ⟨_, h2⟩
    exact (of_decide_eq_true h2) hcirc
  · intro e he
    rcases List.mem_append.mp he with hc | hu
    · left
      rcases List.mem_map.mp hc with ⟨ce, _, rfl⟩
      rfl
    · right
      unfold unresolvedErrorsOf at hu
      rcases List.mem_flatMap.mp hu with ⟨d, _, hd⟩
      rcases hi : d.includes with _ | incs
      · rw [hi] at hd
        simp at hd
      · rw [hi] at hd
        rcases List.mem_map.mp hd with ⟨i, _, rfl⟩
        rfl
  · unfold validateStructure
    simp [List.isEmpty_iff]

/-- Witness for `C8_validation`: a two-file cycle `a.adoc ↔ b.adoc` with
both files on disk and `resolve = rel = id`. -/
theorem C8_validation_witness :
    ((⟨"circular_include", "a.adoc",
        none, "circular include detected"⟩ : VError) ∈
      (validateStructure id id ["a.adoc", "b.adoc"]
        ⟨[⟨"a.adoc", "circular include detected",
           ["a.adoc", "b.adoc", "a.adoc"]⟩], ["a.adoc", "b.adoc"],
         []⟩).errors) ∧
    (id "b.adoc" ∉ orphanFiles id ["a.adoc", "b.adoc"]
      ⟨[⟨"a.adoc", "circular include detected",
         ["a.adoc", "b.adoc", "a.adoc"]⟩], ["a.adoc", "b.adoc"], []⟩) := by
  constructor
  · exact (C8_validation id id ["a.adoc", "b.adoc"] _).1
      ⟨"a.adoc", "circular include detected",
       ["a.adoc", "b.adoc", "a.adoc"]⟩ (by simp)
  · exact (C8_validation id id ["a.adoc", "b.adoc"] _).2.1 "b.adoc"
      ⟨⟨"a.adoc", "circular include detected",
        ["a.adoc", "b.adoc", "a.adoc"]⟩, by simp, Or.inr (by simp)⟩

/-! ## Claim C2: heading-level validation on update (spec-modelled)

`dacli.services.content_service.update_section` is not under `src/` (only
its tests are), so the heading-level validation is modelled from the
specification (§4.4 `validate_heading_level_change`, §7 "Structural
integrity violation"): when the supplied content carries its own explicit
heading line, its level must equal the original section's level,
regardless of children; any mismatch is rejected before any write with an
error naming the expected and supplied levels. -/

/-- The first line of the left-stripped replacement content — the line an
explicit heading would occupy. -/
def firstLineOf (content : String) : String :=
  String.mk ((pyLstrip content).data.takeWhile fun c => ¬ c = '\n')

/-- Outcome of the modelled update: on success `error = none`; on a
heading-level rejection `error = some (expected, supplied)`. -/
structure UpdateOutcome : Type where
  success : Bool
  error : Option (Nat × Nat)
deriving DecidableEq

/-- Modelled from the spec: `content_service.update_section` with the
`validate_heading_level_change` step of §4.4.  The supplied heading level
is read off the first content line with the AsciiDoc heading pattern
(level = equals count − 1, §4.1); a mismatch with the section's level is
rejected before the splice, leaving the file unchanged; otherwise the
prepared content (title preservation plus trailing-newline normalization,
as in `update_section` of `manipulation.py`) replaces the section's line
range. -/
def updateSectionModel (sec : DSec) (r : Option Nat)
    (fileLines : List String) (content : String) (preserveTitle : Bool) :
    UpdateOutcome × List String :=
  match matchSECTION (firstLineOf content) with
  | some (k, _) =>
    if k - 1 ≠ sec.level then
      (⟨false, some (sec.level, k - 1)⟩, fileLines)
    else
      (⟨true, none⟩,
       fileLines.take (sec.line - 1) ++
         [prepareUpdateContent sec content preserveTitle] ++
         fileLines.drop (sectionEndLine r sec))
  | none =>
    (⟨true, none⟩,
     fileLines.take (sec.line - 1) ++
       [prepareUpdateContent sec content preserveTitle] ++
       fileLines.drop (sectionEndLine r sec))

/-- C2: when the replacement content carries an explicit heading line
whose level differs from the original section's level — shallower or
deeper, children or not — the update is rejected with an error naming the
expected and the supplied level, and the file is left byte-for-byte
unchanged. -/
theorem C2_level_mismatch_rejected (sec : DSec) (r : Option Nat)
    (fileLines : List String) (content : String) (preserveTitle : Bool)
    (k : Nat) (t : String)
    (hmatch : matchSECTION (firstLineOf content) = some (k, t))
    (hne : k - 1 ≠ sec.level) :
    (updateSectionModel sec r fileLines content preserveTitle).1.success
        = false ∧
    (updateSectionModel sec r fileLines content preserveTitle).1.error
        = some (sec.level, k - 1) ∧
    (updateSectionModel sec r fileLines content preserveTitle).2
        = fileLines := by
  have hred : updateSectionModel sec r fileLines content preserveTitle =
      (⟨false, some (sec.level, k - 1)⟩, fileLines) := by
    unfold updateSectionModel
    rw [hmatch]
    exact if_pos hne
  rw [hred]
  exact ⟨rfl, rfl, rfl⟩

/-- Witness for `C2_level_mismatch_rejected`: a level-1 section (with a
child) updated with level-2 content `"=== Wrong Level"`. -/
theorem C2_level_mismatch_rejected_witness :
    (updateSectionModel
        (DSec.mk "Parent" 1 3 (some 5) [DSec.mk "Child" 2 6 (some 8) []])
        none ["a", "b", "c"] "=== Wrong Level\n\nNew content." false).1.success
        = false ∧
    (updateSectionModel
        (DSec.mk "Parent" 1 3 (some 5) [DSec.mk "Child" 2 6 (some 8) []])
        none ["a", "b", "c"] "=== Wrong Level\n\nNew content." false).1.error
        = some ((DSec.mk "Parent" 1 3 (some 5)
            [DSec.mk "Child" 2 6 (some 8) []]).level, 3 - 1) ∧
    (updateSectionModel
        (DSec.mk "Parent" 1 3 (some 5) [DSec.mk "Child" 2 6 (some 8) []])
        none ["a", "b", "c"] "=== Wrong Level\n\nNew content." false).2
        = ["a", "b", "c"] := by
  exact C2_level_mismatch_rejected
    (DSec.mk "Parent" 1 3 (some 5) [DSec.mk "Child" 2 6 (some 8) []])
    none ["a", "b", "c"] "=== Wrong Level\n\nNew content." false
    3 "Wrong Level" (by decide) (by decide)

/-! ## Claim C1: fenced-block suppression (spec-modelled)

The parsers with block suppression (`dacli.asciidoc_parser`,
`dacli.markdown_parser`, issue #207) are not under `src/` (only their
tests are); the delimiter-tracking scan is modelled from the
specification (§4.1 "Block suppression"): fence kinds `----`, `....`,
`****`, `====`, `____` (runs of length ≥ 4), `|===` table fences, and
code fences of backticks or tildes (length ≥ 3, closed by an
equal-or-longer fence of the same character); heading recognition is
disabled between a block-open delimiter and its matching close delimiter;
a backslash-escaped fence marker is literal text.  The heading sequence
that survives suppression feeds the same stack nesting algorithm
(`foldHeads`). -/

inductive FenceTok : Type where
  | dash
  | dot
  | star
  | eq
  | under
  | table
  | tick (len : Nat)
  | tilde (len : Nat)
deriving DecidableEq

/-- A full-line run of at least `minLen` copies of `c`. -/
def isRunOf (cs : List Char) (c : Char) (minLen : Nat) : Bool :=
  decide (minLen ≤ cs.length) && cs.all fun d => d = c

/-- The backtick character (U+0060). -/
def tickChar : Char := Char.ofNat 0x60

/-- Modelled from the spec: does this line open a delimited block, and
with which token?  An escaped (backslash-prefixed) marker does not. -/
def fenceOpen (line : String) : Option FenceTok :=
  let cs := line.data
  if cs.head? = some '\\' then none
  else if isRunOf cs '-' 4 then some .dash
  else if isRunOf cs '.' 4 then some .dot
  else if isRunOf cs '*' 4 then some .star
  else if isRunOf cs '=' 4 then some .eq
  else if isRunOf cs '_' 4 then some .under
  else
    match cs with
    | '|' :: rest => if isRunOf rest '=' 3 then some .table else none
    | _ =>
      let k := (cs.takeWhile fun d => d = tickChar).length
      if 3 ≤ k then some (.tick k)
      else
        let kt := (cs.takeWhile fun d => d = '~').length
        if 3 ≤ kt then some (.tilde kt) else none

/-- Modelled from the spec: does this line close the currently open block
(same marker; same or greater fence length for code fences)? -/
def fenceCloses (line : String) (tok : FenceTok) : Bool :=
  let cs := line.data
  if cs.head? = some '\\' then false
  else
    match tok with
    | .dash => isRunOf cs '-' 4
    | .dot => isRunOf cs '.' 4
    | .star => isRunOf cs '*' 4
    | .eq => isRunOf cs '=' 4
    | .under => isRunOf cs '_' 4
    | .table =>
      match cs with
      | '|' :: rest => isRunOf rest '=' 3
      | _ => false
    | .tick k =>
      let run := (cs.takeWhile fun d => d = tickChar).length
      decide (k ≤ run) && (cs.drop run).all pyIsSpace
    | .tilde k =>
      let run := (cs.takeWhile fun d => d = '~').length
      decide (k ≤ run) && (cs.drop run).all pyIsSpace

/-- One line of the delimiter-tracking state machine: `none` = outside
any block, `some (tok, n0)` = inside the block opened by `tok` at line
`n0`. -/
def stepState (st : Option (FenceTok × Nat)) (nl : Nat × String) :
    Option (FenceTok × Nat) :=
  match st with
  | none => (fenceOpen nl.2).map fun tok => (tok, nl.1)
  | some (tok, n0) => if fenceCloses nl.2 tok then none else some (tok, n0)

/-- The scan state after the first `j` lines (the state in which line
`n + j` is processed, for a scan started at line `n` in state `st`). -/
def stateAfter (st : Option (FenceTok × Nat)) (n : Nat) :
    List String → Nat → Option (FenceTok × Nat)
  | _, 0 => st
  | [], _ + 1 => st
  | l :: ls, j + 1 => stateAfter (stepState st (n, l)) (n + 1) ls j

/-- The suppression scan: returns the recognized headings (outside any
block) and the completed block elements `(token, open line, close line)`.
Heading recognition is disabled inside a block. -/
def scanAux : Option (FenceTok × Nat) → Nat → List String →
    List Heading × List (FenceTok × Nat × Nat)
  | _, _, [] => ([], [])
  | none, n, l :: ls =>
    match fenceOpen l with
    | some tok => scanAux (some (tok, n)) (n + 1) ls
    | none =>
      match matchSECTION l with
      | some (k, t) =>
        let res := scanAux none (n + 1) ls
        (⟨n, k - 1, t⟩ :: res.1, res.2)
      | none => scanAux none (n + 1) ls
  | some (tok, n0), n, l :: ls =>
    if fenceCloses l tok then
      let res := scanAux none (n + 1) ls
      (res.1, (tok, n0, n) :: res.2)
    else scanAux (some (tok, n0)) (n + 1) ls

/-- Line-number bounds of the scan results: recognized headings lie at or
after the current line (strictly after while a block is open), and block
start lines are either the currently open block's start or lie strictly
after the current line. -/
theorem scanAux_bounds (ls : List String) :
    ∀ (st : Option (FenceTok × Nat)) (n : Nat),
      (∀ tok n0, st = some (tok, n0) → n0 < n) →
      (∀ h ∈ (scanAux st n ls).1,
        (match st with
         | none => n ≤ h.line
         | some _ => n + 1 ≤ h.line)) ∧
      (∀ e ∈ (scanAux st n ls).2,
        (match st with
         | none => n ≤ e.2.1
         | some (_, n0) => e.2.1 = n0 ∨ n + 1 ≤ e.2.1)) := by
  induction ls with
  | nil =>
    intro st n hinv
    constructor <;> intro x hx <;> rcases st with _ | ⟨tok, n0⟩ <;>
      simp [scanAux] at hx
  | cons l ls ih =>
    intro st n hinv
    rcases st with _ | ⟨tok, n0⟩
    · rcases hfo : fenceOpen l with _ | tok2
      · rcases hms : matchSECTION l with _ | ⟨k, t⟩
        · have heq : scanAux none n (l :: ls) = scanAux none (n + 1) ls := by
            simp only [scanAux]
            rw [hfo, hms]
          have hrec := ih none (n + 1) (fun a b hab => Option.noConfusion hab)
          rw [heq]
          constructor
          · intro h hh
            have h2 : n + 1 ≤ h.line := hrec.1 h hh
            show n ≤ h.line
            omega
          · intro e he
            have h2 : n + 1 ≤ e.2.1 := hrec.2 e he
            show n ≤ e.2.1
            omega
        · have heq : scanAux none n (l :: ls) =
              ((⟨n, k - 1, t⟩ : Heading) :: (scanAux none (n + 1) ls).1,
               (scanAux none (n + 1) ls).2) := by
            simp only [scanAux]
            rw [hfo, hms]
          have hrec := ih none (n + 1) (fun a b hab => Option.noConfusion hab)
          rw [heq]
          constructor
          · intro h hh
            show n ≤ h.line
            rcases List.mem_cons.mp hh with rfl | hh2
            · exact le_refl n
            · have h2 : n + 1 ≤ h.line := hrec.1 h hh2
              omega
          · intro e he
            have h2 : n + 1 ≤ e.2.1 := hrec.2 e he
            show n ≤ e.2.1
            omega
      · have heq : scanAux none n (l :: ls) =
            scanAux (some (tok2, n)) (n + 1) ls := by
          simp only [scanAux]
          rw [hfo]
        have hrec := ih (some (tok2, n)) (n + 1)
          (fun a b hab => by
            rw [Option.some.injEq, Prod.mk.injEq] at hab
            omega)
        rw [heq]
        constructor
        · intro h hh
          have h2 : n + 1 + 1 ≤ h.line := hrec.1 h hh
          show n ≤ h.line
          omega
        · intro e he
          have h2 : e.2.1 = n ∨ n + 1 + 1 ≤ e.2.1 := hrec.2 e he
          show n ≤ e.2.1
          omega
    · by_cases hcl : fenceCloses l tok = true
      · have heq : scanAux (some (tok, n0)) n (l :: ls) =
            ((scanAux none (n + 1) ls).1,
             (tok, n0, n) :: (scanAux none (n + 1) ls).2) := by
          simp only [scanAux]
          rw [if_pos hcl]
        have hrec := ih none (n + 1) (fun a b hab => Option.noConfusion hab)
        rw [heq]
        constructor
        · intro h hh
          have h2 : n + 1 ≤ h.line := hrec.1 h hh
          show n + 1 ≤ h.line
          omega
        · intro e he
          show e.2.1 = n0 ∨ n + 1 ≤ e.2.1
          rcases List.mem_cons.mp he with rfl | he2
          · exact Or.inl rfl
          · have h2 : n + 1 ≤ e.2.1 := hrec.2 e he2
            omega
      · have heq : scanAux (some (tok, n0)) n (l :: ls) =
            scanAux (some (tok, n0)) (n + 1) ls := by
          simp only [scanAux]
          rw [if_neg hcl]
        have hn0 : n0 < n := hinv tok n0 rfl
        have hrec := ih (some (tok, n0)) (n + 1)
          (fun a b hab => by
            rw [Option.some.injEq, Prod.mk.injEq] at hab
            omega)
        rw [heq]
        constructor
        · intro h hh
          have h2 : n + 1 + 1 ≤ h.line := hrec.1 h hh
          show n + 1 ≤ h.line
          omega
        · intro e he
          have h2 : e.2.1 = n0 ∨ n + 1 + 1 ≤ e.2.1 := hrec.2 e he
          show e.2.1 = n0 ∨ n + 1 ≤ e.2.1
          omega

/-- The central suppression property of the scan: while a block is open
at position `j` (0-based, line `n + j`), the scan recognizes no heading
and starts no element at that line; when no block is open there and the
line matches the heading pattern (and is not itself a fence opener), the
corresponding heading is recognized. -/
theorem scanAux_main (ls : List String) :
    ∀ (st : Option (FenceTok × Nat)) (n j : Nat),
      (∀ tok n0, st = some (tok, n0) → n0 < n) →
      (stateAfter st n ls j ≠ none →
        (∀ h ∈ (scanAux st n ls).1, h.line ≠ n + j) ∧
        (∀ e ∈ (scanAux st n ls).2, e.2.1 ≠ n + j)) ∧
      (stateAfter st n ls j = none →
        ∀ k t, matchSECTION (ls.getD j "") = some (k, t) →
          fenceOpen (ls.getD j "") = none →
          (⟨n + j, k - 1, t⟩ : Heading) ∈ (scanAux st n ls).1) := by
  induction ls with
  | nil =>
    intro st n j hinv
    constructor
    · intro _
      constructor <;> intro x hx <;> rcases st with _ | ⟨tok, n0⟩ <;>
        simp [scanAux] at hx
    · intro _ k t hms _
      have hget : ([] : List String).getD j "" = "" := by simp
      have hnone : matchSECTION "" = none := by decide
      rw [hget, hnone] at hms
      exact Option.noConfusion hms
  | cons l ls ih =>
    intro st n j hinv
    rcases j with _ | j
    · -- position 0 is the current line, processed in state `st`
      rcases st with _ | ⟨tok, n0⟩
      · constructor
        · intro hcon
          exact absurd rfl hcon
        · intro _ k t hms hfo
          have hgl : (l :: ls).getD 0 "" = l := rfl
          rw [hgl] at hms hfo
          have heq : scanAux none n (l :: ls) =
              ((⟨n, k - 1, t⟩ : Heading) :: (scanAux none (n + 1) ls).1,
               (scanAux none (n + 1) ls).2) := by
            simp only [scanAux]
            rw [hfo, hms]
          rw [heq]
          exact List.mem_cons_self _ _
      · constructor
        · intro _
          have hb := scanAux_bounds (l :: ls) (some (tok, n0)) n hinv
          have hn0 : n0 < n := hinv tok n0 rfl
          constructor
          · intro h hh
            have h2 : n + 1 ≤ h.line := hb.1 h hh
            omega
          · intro e he
            have h2 : e.2.1 = n0 ∨ n + 1 ≤ e.2.1 := hb.2 e he
            omega
        · intro hcon
          exact absurd hcon (by
            show ¬ stateAfter (some (tok, n0)) n (l :: ls) 0 = none
            intro hx
            exact Option.noConfusion hx)
    · -- position j + 1: advance one line
      have hsa : stateAfter st n (l :: ls) (j + 1) =
          stateAfter (stepState st (n, l)) (n + 1) ls j := rfl
      have hadd : n + (j + 1) = (n + 1) + j := by omega
      have hget : (l :: ls).getD (j + 1) "" = ls.getD j "" := rfl
      rcases st with _ | ⟨tok, n0⟩
      · rcases hfo : fenceOpen l with _ | tok2
        · rcases hms : matchSECTION l with _ | ⟨k0, t0⟩
          · have heq : scanAux none n (l :: ls) = scanAux none (n + 1) ls := by
              simp only [scanAux]
              rw [hfo, hms]
            have hss : stepState none (n, l) = none := by
              simp [stepState, hfo]
            have ihh := ih none (n + 1) j
              (fun a b hab => Option.noConfusion hab)
            rw [heq, hsa, hss, hget, hadd]
            exact ihh
          · have heq : scanAux none n (l :: ls) =
                ((⟨n, k0 - 1, t0⟩ : Heading) ::
                    (scanAux none (n + 1) ls).1,
                 (scanAux none (n + 1) ls).2) := by
              simp only [scanAux]
              rw [hfo, hms]
            have hss : stepState none (n, l) = none := by
              simp [stepState, hfo]
            have ihh := ih none (n + 1) j
              (fun a b hab => Option.noConfusion hab)
            rw [heq, hsa, hss, hget, hadd]
            constructor
            · intro hne
              constructor
              · intro h hh
                rcases List.mem_cons.mp hh with rfl | hh2
                · show n ≠ n + 1 + j
                  omega
                · exact (ihh.1 hne).1 h hh2
              · exact (ihh.1 hne).2
            · intro hyes k t hms2 hfo2
              exact List.mem_cons_of_mem _ (ihh.2 hyes k t hms2 hfo2)
        · have heq : scanAux none n (l :: ls) =
              scanAux (some (tok2, n)) (n + 1) ls := by
            simp only [scanAux]
            rw [hfo]
          have hss : stepState none (n, l) = some (tok2, n) := by
            simp [stepState, hfo]
          have ihh := ih (some (tok2, n)) (n + 1) j
            (fun a b hab => by
              rw [Option.some.injEq, Prod.mk.injEq] at hab
              omega)
          rw [heq, hsa, hss, hget, hadd]
          exact ihh
      · by_cases hcl : fenceCloses l tok = true
        · have heq : scanAux (some (tok, n0)) n (l :: ls) =
              ((scanAux none (n + 1) ls).1,
               (tok, n0, n) :: (scanAux none (n + 1) ls).2) := by
            simp only [scanAux]
            rw [if_pos hcl]
          have hss : stepState (some (tok, n0)) (n, l) = none := by
            simp [stepState, hcl]
          have hn0 : n0 < n := hinv tok n0 rfl
          have ihh := ih none (n + 1) j
            (fun a b hab => Option.noConfusion hab)
          rw [heq, hsa, hss, hget, hadd]
          constructor
          · intro hne
            constructor
            · exact (ihh.1 hne).1
            · intro e he
              rcases List.mem_cons.mp he with rfl | he2
              · show n0 ≠ n + 1 + j
                omega
              · exact (ihh.1 hne).2 e he2
          · intro hyes k t hms2 hfo2
            exact ihh.2 hyes k t hms2 hfo2
        · have heq : scanAux (some (tok, n0)) n (l :: ls) =
              scanAux (some (tok, n0)) (n + 1) ls := by
            simp only [scanAux]
            rw [if_neg hcl]
          have hss : stepState (some (tok, n0)) (n, l) =
              some (tok, n0) := by
            simp [stepState, hcl]
          have hn0 : n0 < n := hinv tok n0 rfl
          have ihh := ih (some (tok, n0)) (n + 1) j
            (fun a b hab => by
              rw [Option.some.injEq, Prod.mk.injEq] at hab
              omega)
          rw [heq, hsa, hss, hget, hadd]
          exact ihh

/-- The modelled suppressing parse: suppression scan, then the same
section-stack nesting fold as `_parse_sections`. -/
def parseSuppressed (lines : List String) : List MSec × String :=
  let st := foldHeads (scanAux none 1 lines).1
  (flushA st, st.docTitle)

/-- The suppression scenario of the claim. -/
def fenceScenario : List String :=
  ["= Doc", "", "== Real", "", "----", "== Fake", "----", "", "== Real2"]

example :
    (scanAux none 1 fenceScenario).1 =
      [⟨1, 0, "Doc"⟩, ⟨3, 1, "Real"⟩, ⟨9, 1, "Real2"⟩] := by rfl

example :
    (scanAux none 1 fenceScenario).2 = [(FenceTok.dash, 5, 7)] := by rfl

example :
    parseSuppressed fenceScenario =
      ([MSec.mk "Doc" 0 "doc" 1
          [MSec.mk "Real" 1 "doc.real" 3 [],
           MSec.mk "Real2" 1 "doc.real2" 9 []]], "Doc") := by rfl

/-- C1: a heading-like line inside a fenced/delimited block produces no
section (no recognized heading carries its line number) and no element
(no block element starts at its line), while a heading outside any fence
is still recognized; the sections of the parse result are exactly the
recognized headings; and the scenario document `= Doc`, `== Real`, a
`----` block containing `== Fake`, `== Real2` yields exactly the sections
Doc, Real and Real2 — never Fake. -/
theorem C1_fence_suppression :
    (∀ (lines : List String) (j : Nat),
      stateAfter none 1 lines j ≠ none →
        (∀ h ∈ (scanAux none 1 lines).1, h.line ≠ 1 + j) ∧
        (∀ e ∈ (scanAux none 1 lines).2, e.2.1 ≠ 1 + j)) ∧
    (∀ (lines : List String) (j : Nat),
      stateAfter none 1 lines j = none →
        ∀ k t, matchSECTION (lines.getD j "") = some (k, t) →
          fenceOpen (lines.getD j "") = none →
          (⟨1 + j, k - 1, t⟩ : Heading) ∈ (scanAux none 1 lines).1) ∧
    (∀ (lines : List String) (y : Nat),
      y ∈ linesL (parseSuppressed lines).1 ↔
        y ∈ (scanAux none 1 lines).1.map Heading.line) ∧
    parseSuppressed fenceScenario =
      ([MSec.mk "Doc" 0 "doc" 1
          [MSec.mk "Real" 1 "doc.real" 3 [],
           MSec.mk "Real2" 1 "doc.real2" 9 []]], "Doc") ∧
    titlesL (parseSuppressed fenceScenario).1 = ["Doc", "Real", "Real2"] ∧
    "Fake" ∉ titlesL (parseSuppressed fenceScenario).1 := by
  refine ⟨?_, ?_, ?_, rfl, rfl, by decide⟩
  · intro lines j hne
    exact (scanAux_main lines none 1 j
      (fun a b hab => Option.noConfusion hab)).1 hne
  · intro lines j hyes k t hms hfo
    exact (scanAux_main lines none 1 j
      (fun a b hab => Option.noConfusion hab)).2 hyes k t hms hfo
  · intro lines y
    exact linesL_foldHeads (scanAux none 1 lines).1 y

/-- Witness for `C1_fence_suppression`: in the scenario document, line 6
(`== Fake`, inside the `----` block opened at line 5) yields no heading
and no element start, while line 3 (`== Real`, outside any block) yields
its heading. -/
theorem C1_fence_suppression_witness :
    ((∀ h ∈ (scanAux none 1 fenceScenario).1, h.line ≠ 1 + 5) ∧
      (∀ e ∈ (scanAux none 1 fenceScenario).2, e.2.1 ≠ 1 + 5)) ∧
    (⟨1 + 2, 2 - 1, "Real"⟩ : Heading) ∈ (scanAux none 1 fenceScenario).1 := by
  constructor
  · exact C1_fence_suppression.1 fenceScenario 5 (by decide)
  · exact C1_fence_suppression.2.1 fenceScenario 2 (by decide) 2 "Real"
      (by decide) (by decide)

end DacliProof
